import Mathlib

/-!
AVLTree.h : a shallow embedding and its verification

The C++ class `AVLTree` (src/AVLTree.h) owns a tree of heap nodes through raw
pointers.  No node is ever shared (each node has exactly one owner), so a
`Node*` is embedded as a value of the inductive type `AVLTree.Node`, the null
pointer being the constructor `null`.

* `int` keys are only compared, never added, so they are embedded as `Int`.
* The cached `height` field is an `int`; it is embedded as `Int`.  On the trees
  the class can build it is bounded by the logarithm of the node count, far from
  the 32 bit limit, so no wrap-around is modelled.
* Dereferencing a null pointer is undefined behaviour.  Every function of the
  source that dereferences a pointer without a test (`rotateRight`,
  `rotateLeft`, the `temp->value` of `remove`) is embedded as an `Option`
  valued function which is `none` exactly where the source would dereference
  null; the functions calling them propagate `none`.
* The source overloads `insert` and `remove` (a private recursive one on
  `Node*`, a public one on the object).  The private ones are `Node.insert` and
  `Node.remove` here, the public ones `AVLTree.insert` and `AVLTree.remove`.
-/

namespace AVLTree

/-- Embedding of `Node*`: `null` is `nullptr`, `mk value left right height` a
heap node with these four fields (src/AVLTree.h, lines 13-21). -/
inductive Node where
  | null : Node
  | mk (value : Int) (left : Node) (right : Node) (height : Int) : Node
  deriving DecidableEq, Repr

/-- The test `!node` of the source. -/
def Node.isNull : Node → Bool
  | .null => true
  | .mk _ _ _ _ => false

/-- Source `getHeight` (lines 26-28): `node ? node->height : 0`. -/
def getHeight : Node → Int
  | .null => 0
  | .mk _ _ _ h => h

/-- Source `getBalanceFactor` (lines 31-33). -/
def getBalanceFactor : Node → Int
  | .null => 0
  | .mk _ l r _ => getHeight l - getHeight r

/-- Source `updateHeight` (lines 36-40): overwrite the cached height of a
non-null node by `1 + max` of the cached heights of its children. -/
def updateHeight : Node → Node
  | .null => .null
  | .mk v l r _ => .mk v l r (1 + max (getHeight l) (getHeight r))

/-- Source `rotateRight` (lines 43-56).  `x = y->left; T2 = x->right;
x->right = y; y->left = T2; updateHeight(y); updateHeight(x); return x`.
It is `none` where the source dereferences null (`y` or `y->left` null). -/
def rotateRight : Node → Option Node
  | .mk yv (.mk xv xl T2 xh) yr yh =>
      some (updateHeight (.mk xv xl (updateHeight (.mk yv T2 yr yh)) xh))
  | _ => none

/-- Source `rotateLeft` (lines 59-72).  `y = x->right; T2 = y->left;
y->left = x; x->right = T2; updateHeight(x); updateHeight(y); return y`.
It is `none` where the source dereferences null (`x` or `x->right` null). -/
def rotateLeft : Node → Option Node
  | .mk xv xl (.mk yv T2 yr yh) xh =>
      some (updateHeight (.mk yv (updateHeight (.mk xv xl T2 xh)) yr yh))
  | _ => none

/-- Source `balance` (lines 75-104). -/
def balance : Node → Option Node
  | .null => some .null
  | .mk v l r _ =>
      -- updateHeight(node)
      let h := 1 + max (getHeight l) (getHeight r)
      -- getBalanceFactor(node)
      let balanceFactor := getHeight l - getHeight r
      if balanceFactor > 1 ∧ getBalanceFactor l ≥ 0 then
        rotateRight (.mk v l r h)
      else if balanceFactor > 1 ∧ getBalanceFactor l < 0 then
        (rotateLeft l).bind fun l1 => rotateRight (.mk v l1 r h)
      else if balanceFactor < -1 ∧ getBalanceFactor r ≤ 0 then
        rotateLeft (.mk v l r h)
      else if balanceFactor < -1 ∧ getBalanceFactor r > 0 then
        (rotateRight r).bind fun r1 => rotateLeft (.mk v l r1 h)
      else
        some (.mk v l r h)

/-- Source `insert(Node*, int)` (lines 107-121). -/
def Node.insert : Node → Int → Option Node
  | .null, value => some (.mk value .null .null 1)
  | .mk v l r h, value =>
      if value < v then
        (Node.insert l value).bind fun l1 => balance (.mk v l1 r h)
      else if value > v then
        (Node.insert r value).bind fun r1 => balance (.mk v l r1 h)
      else
        some (.mk v l r h)

/-- Source `findMin` (lines 124-129): follow `left` while it is not null. -/
def findMin : Node → Node
  | .null => .null
  | .mk v l r h =>
      match l with
      | .null => .mk v l r h
      | .mk _ _ _ _ => findMin l

/-- Source `remove(Node*, int)` (lines 132-166).  In the one-child case
`*node = *temp` makes the node a copy of its only child, which is then what
`balance` receives.  In the two-children case `temp->value` is a dereference of
the result of `findMin`, hence the `none` branch. -/
def Node.remove : Node → Int → Option Node
  | .null, _ => some .null
  | .mk v l r h, value =>
      if value < v then
        (Node.remove l value).bind fun l1 => balance (.mk v l1 r h)
      else if value > v then
        (Node.remove r value).bind fun r1 => balance (.mk v l r1 h)
      else if l.isNull || r.isNull then
        let temp := if !l.isNull then l else r
        if temp.isNull then some .null
        else balance temp
      else
        match findMin r with
        | .null => none
        | .mk tv _ _ _ =>
            (Node.remove r tv).bind fun r1 => balance (.mk tv l r1 h)

/-- Source `inOrderTraversal` (lines 169-175): the keys are pushed onto the
back of the vector `result`. -/
def inOrderTraversal : Node → List Int → List Int
  | .null, result => result
  | .mk v l r _, result => inOrderTraversal r (inOrderTraversal l result ++ [v])

/-- The loop of source `contains` (lines 239-244), on the pointer `current`. -/
def containsLoop : Node → Int → Bool
  | .null, _ => false
  | .mk v l r _, value =>
      if value = v then true
      else if value < v then containsLoop l value
      else containsLoop r value

end AVLTree

/-- The object state of the class `AVLTree`: its only data member `root`. -/
structure AVLTree where
  root : AVLTree.Node
  deriving DecidableEq, Repr

namespace AVLTree

/-- The constructor `AVLTree()` (line 211): `root(nullptr)`. -/
def empty : AVLTree := ⟨Node.null⟩

/-- Public `insert(int)` (lines 228-230): `root = insert(root, value)`. -/
def insert (t : AVLTree) (value : Int) : Option AVLTree :=
  (Node.insert t.root value).map fun r => ⟨r⟩

/-- Public `remove(int)` (lines 233-235): `root = remove(root, value)`. -/
def remove (t : AVLTree) (value : Int) : Option AVLTree :=
  (Node.remove t.root value).map fun r => ⟨r⟩

/-- Public `contains(int)` (lines 238-245).  The method is not `const`, so the
object state after the call is returned next to the result. -/
def contains (t : AVLTree) (value : Int) : Bool × AVLTree :=
  (containsLoop t.root value, t)

/-- Public `toInOrderList()` (lines 248-252). -/
def toInOrderList (t : AVLTree) : List Int :=
  inOrderTraversal t.root []

/-- One call of the public mutating interface. -/
inductive Op where
  | ins (k : Int) : Op
  | rem (k : Int) : Op
  deriving DecidableEq, Repr

/-- Perform one public call on an object. -/
def applyOp (t : AVLTree) : Op → Option AVLTree
  | .ins k => t.insert k
  | .rem k => t.remove k

/-- Perform a finite sequence of public calls, first element first. -/
def runOps (t : AVLTree) : List Op → Option AVLTree
  | [] => some t
  | op :: ops => (applyOp t op).bind fun t1 => runOps t1 ops

/-- A tree is reachable when some finite sequence of public `insert` / `remove`
calls on the empty tree produces it. -/
def Reachable (t : AVLTree) : Prop :=
  ∃ ops : List Op, runOps empty ops = some t

/-- The true height of a subtree: 0 for an absent one, else one more than the
larger of the true heights of the children. -/
def trueHeight : Node → Int
  | .null => 0
  | .mk _ l r _ => 1 + max (trueHeight l) (trueHeight r)

/-- BST ordering at every node: keys of the left subtree are strictly below the
key of the node and keys of the right subtree strictly above. -/
def IsBST : Node → Prop
  | .null => True
  | .mk v l r _ =>
      (∀ x ∈ inOrderTraversal l [], x < v) ∧ (∀ x ∈ inOrderTraversal r [], v < x)
        ∧ IsBST l ∧ IsBST r

/-- AVL balance at every node, stated on true heights. -/
def IsBalanced : Node → Prop
  | .null => True
  | .mk _ l r _ =>
      trueHeight l - trueHeight r ≤ 1 ∧ trueHeight r - trueHeight l ≤ 1
        ∧ IsBalanced l ∧ IsBalanced r

/-- Cached heights are right at every node: the stored field is
`1 + max (getHeight left) (getHeight right)`. -/
def HeightsOK : Node → Prop
  | .null => True
  | .mk _ l r h =>
      h = 1 + max (getHeight l) (getHeight r) ∧ HeightsOK l ∧ HeightsOK r

instance decIsBST : (n : Node) → Decidable (IsBST n)
  | .null => isTrue trivial
  | .mk v l r _ =>
      have := decIsBST l
      have := decIsBST r
      by unfold IsBST; infer_instance

instance decIsBalanced : (n : Node) → Decidable (IsBalanced n)
  | .null => isTrue trivial
  | .mk _ l r _ =>
      have := decIsBalanced l
      have := decIsBalanced r
      by unfold IsBalanced; infer_instance

instance decHeightsOK : (n : Node) → Decidable (HeightsOK n)
  | .null => isTrue trivial
  | .mk _ l r _ =>
      have := decHeightsOK l
      have := decHeightsOK r
      by unfold HeightsOK; infer_instance

/-- The keys of a subtree in in-order: what `inOrderTraversal` pushes onto an
empty vector. -/
abbrev keys (n : Node) : List Int := inOrderTraversal n []

/-- Balance and cached heights together, stated on the cached heights: the
form of the invariant that `balance` itself reads. -/
def AVL : Node → Prop
  | .null => True
  | .mk _ l r h =>
      h = 1 + max (getHeight l) (getHeight r) ∧ getHeight l - getHeight r ≤ 1
        ∧ getHeight r - getHeight l ≤ 1 ∧ AVL l ∧ AVL r

/-- The invariant of the object: balance, cached heights, and strictly
increasing in-order keys. -/
def Inv (t : AVLTree) : Prop :=
  AVL t.root ∧ (keys t.root).Pairwise (· < ·)

/-- The cached height of every node is the true height of its subtree. -/
def CachedHeightsTrue : Node → Prop
  | .null => True
  | .mk v l r h =>
      h = trueHeight (.mk v l r h) ∧ CachedHeightsTrue l ∧ CachedHeightsTrue r

/-- The nodes visited by the descent that `insert`, `remove` and `contains`
share: left when the key is smaller, right when it is larger, stop on equality
or on an absent subtree. -/
def searchPath : Node → Int → List Node
  | .null, _ => []
  | .mk v l r h, value =>
      .mk v l r h ::
        (if value < v then searchPath l value
         else if value > v then searchPath r value
         else [])

/-- Whether `balance` takes one of its four rotating branches on this node: the
disjunction of the four conditions of the source (lines 82, 87, 93, 98), read
after `updateHeight`. -/
def balanceRotates : Node → Bool
  | .null => false
  | .mk _ l r _ =>
      let balanceFactor := getHeight l - getHeight r
      decide ((balanceFactor > 1 ∧ getBalanceFactor l ≥ 0)
        ∨ (balanceFactor > 1 ∧ getBalanceFactor l < 0)
        ∨ (balanceFactor < -1 ∧ getBalanceFactor r ≤ 0)
        ∨ (balanceFactor < -1 ∧ getBalanceFactor r > 0))

end AVLTree

namespace AVLTree

/-- Source `preOrderTraversal` (lines 177-183). -/
def preOrderTraversal : Node → List Int → List Int
  | .null, result => result
  | .mk v l r _, result => preOrderTraversal r (preOrderTraversal l (result ++ [v]))

/-- Source `postOrderTraversal` (lines 185-191). -/
def postOrderTraversal : Node → List Int → List Int
  | .null, result => result
  | .mk v l r _, result => postOrderTraversal r (postOrderTraversal l result) ++ [v]

/-- The `while (!q.empty())` loop of source `levelOrderTraversal` (lines
199-206), on the queue `q` (front first) and the vector `result`.  Each
iteration costs one unit of fuel.  It is `none` when the fuel runs out before
the queue is empty, and where the source would dereference a null `current`. -/
def levelOrderLoop : Nat → List Node → List Int → Option (List Int)
  | _, [], result => some result
  | 0, _ :: _, _ => none
  | fuel + 1, current :: q, result =>
      match current with
      | .null => none
      | .mk v l r _ =>
          let q1 := if !l.isNull then q ++ [l] else q
          let q2 := if !r.isNull then q1 ++ [r] else q1
          levelOrderLoop fuel q2 (result ++ [v])

/-- Source `levelOrderTraversal` (lines 193-207): nothing for a null node, else
the queue loop started on the queue holding the node. -/
def levelOrderTraversal (fuel : Nat) (node : Node) (result : List Int) : Option (List Int) :=
  if node.isNull then some result else levelOrderLoop fuel [node] result

/-- The `for` loop of source `printAsList` (lines 294-297): each element, and
`", "` after each one but the last. -/
def printElements : List Int → String
  | [] => ""
  | x :: rest => toString x ++ (if rest.isEmpty then "" else ", ") ++ printElements rest

/-- The number of nodes of a subtree. -/
def size : Node → Nat
  | .null => 0
  | .mk _ l r _ => size l + size r + 1

/-- The keys of the nodes at depth `d` of a subtree (its root is at depth 0),
listed left to right. -/
def levelKeys : Node → Nat → List Int
  | .null, _ => []
  | .mk v _ _ _, 0 => [v]
  | .mk _ l r _, d + 1 => levelKeys l d ++ levelKeys r d

/-- Breadth-first by depth: the keys at depth 0, then those at depth 1, and so
on through the last depth of the subtree. -/
def byDepth (n : Node) : List Int :=
  (List.range (trueHeight n).toNat).flatMap (levelKeys n)

/-- The children a node pushes onto the queue: the non-null ones, left first. -/
def children : Node → List Node
  | .null => []
  | .mk _ l r _ => (if !l.isNull then [l] else []) ++ (if !r.isNull then [r] else [])

/-- The nodes handed to `balance` by source `insert(Node*, int)` (line 120), in
the order of the calls (deepest first): at each node of the descent, the node
with the result of the recursive call stored in the child that was followed. -/
def Node.insertBalanceArgs : Node → Int → Option (List Node)
  | .null, _ => some []
  | .mk v l r h, value =>
      if value < v then
        (Node.insert l value).bind fun l1 =>
          (Node.insertBalanceArgs l value).map fun args => args ++ [.mk v l1 r h]
      else if value > v then
        (Node.insert r value).bind fun r1 =>
          (Node.insertBalanceArgs r value).map fun args => args ++ [.mk v l r1 h]
      else
        some []

/-- Plain BST insertion without rebalancing, the comparison of the demo
scenario: source `insert(Node*, int)` with `balance(node)` replaced by
`updateHeight(node)`. -/
def Node.insertNoBalance : Node → Int → Node
  | .null, value => .mk value .null .null 1
  | .mk v l r h, value =>
      if value < v then updateHeight (.mk v (Node.insertNoBalance l value) r h)
      else if value > v then updateHeight (.mk v l (Node.insertNoBalance r value) h)
      else .mk v l r h

/-- Public `toPreOrderList()` (lines 254-258). -/
def toPreOrderList (t : AVLTree) : List Int :=
  preOrderTraversal t.root []

/-- Public `toPostOrderList()` (lines 260-264). -/
def toPostOrderList (t : AVLTree) : List Int :=
  postOrderTraversal t.root []

/-- Public `toLevelOrderList()` (lines 266-270), with the fuel of the queue loop. -/
def toLevelOrderList (fuel : Nat) (t : AVLTree) : Option (List Int) :=
  levelOrderTraversal fuel t.root []

/-- Public `printAsList` (lines 273-299).  The value is the text written to
`std::cout`; an element is written in decimal, as `operator<<` writes an `int`.
The fuel is that of the queue loop of the level-order traversal. -/
def printAsList (fuel : Nat) (t : AVLTree) (order : String) : Option String :=
  if order = "inorder" then
    some ("In-order traversal (sorted): [" ++ printElements (toInOrderList t) ++ "]\n")
  else if order = "preorder" then
    some ("Pre-order traversal: [" ++ printElements (toPreOrderList t) ++ "]\n")
  else if order = "postorder" then
    some ("Post-order traversal: [" ++ printElements (toPostOrderList t) ++ "]\n")
  else if order = "levelorder" then
    (toLevelOrderList fuel t).map fun elements =>
      "Level-order traversal: [" ++ printElements elements ++ "]\n"
  else
    some ("Unknown traversal type. Using inorder by default.\n"
      ++ "In-order traversal (sorted): [" ++ printElements (toInOrderList t) ++ "]\n")

end AVLTree

namespace AVLTree

/-- The number of nodes of the subtrees held by a queue. -/
def sizeL : List Node → Nat
  | [] => 0
  | n :: ns => size n + sizeL ns

/-- The keys at depth `d` of the subtrees of a queue, front first. -/
def forestLevel (ns : List Node) (d : Nat) : List Int :=
  ns.flatMap fun n => levelKeys n d

end AVLTree
namespace AVLTree

/-- Whether `balance` takes a rotating branch at some node it is handed during
source `insert(Node*, int)` of the key. -/
def rotatesDuringInsert (n : Node) (value : Int) : Bool :=
  match Node.insertBalanceArgs n value with
  | some args => args.any balanceRotates
  | none => false

end AVLTree

namespace AVLTree

/-- The nodes handed to `balance` by source `remove(Node*, int)` (line 165), in
the order of the calls (deepest first): as for `insert`, and at the found node
the copy of the only child, or the node with the successor key and the right
subtree returned by the recursive call. -/
def Node.removeBalanceArgs : Node → Int → Option (List Node)
  | .null, _ => some []
  | .mk v l r h, value =>
      if value < v then
        (Node.remove l value).bind fun l1 =>
          (Node.removeBalanceArgs l value).map fun args => args ++ [.mk v l1 r h]
      else if value > v then
        (Node.remove r value).bind fun r1 =>
          (Node.removeBalanceArgs r value).map fun args => args ++ [.mk v l r1 h]
      else if l.isNull || r.isNull then
        let temp := if !l.isNull then l else r
        if temp.isNull then some []
        else some [temp]
      else
        match findMin r with
        | .null => none
        | .mk tv _ _ _ =>
            (Node.remove r tv).bind fun r1 =>
              (Node.removeBalanceArgs r tv).map fun args => args ++ [.mk tv l r1 h]

end AVLTree

namespace AVLTree

/-- A sparsest AVL shape of height `h`: subtrees of heights `h - 1` and
`h - 2`, with correct cached heights (all keys 0, only the shape matters). -/
def fibTree : Nat → Node
  | 0 => .null
  | 1 => .mk 0 .null .null 1
  | h + 2 => .mk 0 (fibTree (h + 1)) (fibTree h) ((h + 2 : Nat) : Int)

end AVLTree

namespace AVLTree

/-! Helper lemmas -/

theorem getHeight_null : getHeight .null = 0 := rfl

theorem getHeight_mk (v : Int) (l r : Node) (h : Int) : getHeight (.mk v l r h) = h := rfl

theorem getBalanceFactor_null : getBalanceFactor .null = 0 := rfl

theorem getBalanceFactor_mk (v : Int) (l r : Node) (h : Int) :
    getBalanceFactor (.mk v l r h) = getHeight l - getHeight r := rfl

theorem updateHeight_mk (v : Int) (l r : Node) (h : Int) :
    updateHeight (.mk v l r h) = .mk v l r (1 + max (getHeight l) (getHeight r)) := rfl

theorem AVL_mk (v : Int) (l r : Node) (h : Int) :
    AVL (.mk v l r h) ↔ h = 1 + max (getHeight l) (getHeight r) ∧ getHeight l - getHeight r ≤ 1
        ∧ getHeight r - getHeight l ≤ 1 ∧ AVL l ∧ AVL r := Iff.rfl

theorem inOrderTraversal_append (n : Node) (res : List Int) :
    inOrderTraversal n res = res ++ inOrderTraversal n [] := by
  induction n generalizing res with
  | null => simp [inOrderTraversal]
  | mk v l r h ihl ihr =>
      simp only [inOrderTraversal]
      rw [ihr (inOrderTraversal l res ++ [v]), ihl res, ihr (inOrderTraversal l [] ++ [v])]
      simp

theorem keys_null : keys .null = [] := rfl

theorem keys_mk (v : Int) (l r : Node) (h : Int) :
    keys (.mk v l r h) = keys l ++ v :: keys r := by
  show inOrderTraversal r (inOrderTraversal l [] ++ [v]) = _
  rw [inOrderTraversal_append r]
  simp

theorem AVL_getHeight_nonneg {n : Node} (hn : AVL n) : 0 ≤ getHeight n := by
  cases n with
  | null => simp [getHeight_null]
  | mk v l r h =>
      obtain ⟨h1, _, _, hl, hr⟩ := hn
      have := AVL_getHeight_nonneg hl
      have := AVL_getHeight_nonneg hr
      simp only [getHeight_mk]
      omega

/-- Left-left case of `balance`: one right rotation. -/
theorem rotateRight_single (v h : Int) (l r : Node) (hl : AVL l) (hr : AVL r)
    (hd : getHeight l = getHeight r + 2) (hb : getBalanceFactor l ≥ 0) :
    ∃ t, rotateRight (.mk v l r h) = some t ∧ AVL t ∧ keys t = keys l ++ v :: keys r
      ∧ (getHeight t = getHeight l ∨ getHeight t = getHeight l + 1) := by
  have hr0 := AVL_getHeight_nonneg hr
  cases l with
  | null => simp only [getHeight_null] at hd; omega
  | mk lv ll lr lh =>
      obtain ⟨h1, h2, h3, hll, hlr⟩ := hl
      have := AVL_getHeight_nonneg hll
      have := AVL_getHeight_nonneg hlr
      simp only [getHeight_mk, getBalanceFactor_mk] at *
      refine ⟨_, rfl, ?_, ?_, ?_⟩
      · simp only [updateHeight_mk, AVL_mk, getHeight_mk]
        refine ⟨trivial, ?_, ?_, hll, ⟨trivial, ?_, ?_, hlr, hr⟩⟩ <;> omega
      · simp [updateHeight_mk, keys_mk]
      · simp only [updateHeight_mk, getHeight_mk]
        omega

/-- Right-right case of `balance`: one left rotation. -/
theorem rotateLeft_single (v h : Int) (l r : Node) (hl : AVL l) (hr : AVL r)
    (hd : getHeight r = getHeight l + 2) (hb : getBalanceFactor r ≤ 0) :
    ∃ t, rotateLeft (.mk v l r h) = some t ∧ AVL t ∧ keys t = keys l ++ v :: keys r
      ∧ (getHeight t = getHeight r ∨ getHeight t = getHeight r + 1) := by
  have hl0 := AVL_getHeight_nonneg hl
  cases r with
  | null => simp only [getHeight_null] at hd; omega
  | mk rv rl rr rh =>
      obtain ⟨h1, h2, h3, hrl, hrr⟩ := hr
      have := AVL_getHeight_nonneg hrl
      have := AVL_getHeight_nonneg hrr
      simp only [getHeight_mk, getBalanceFactor_mk] at *
      refine ⟨_, rfl, ?_, ?_, ?_⟩
      · simp only [updateHeight_mk, AVL_mk, getHeight_mk]
        refine ⟨trivial, ?_, ?_, ⟨trivial, ?_, ?_, hl, hrl⟩, hrr⟩ <;> omega
      · simp [updateHeight_mk, keys_mk]
      · simp only [updateHeight_mk, getHeight_mk]
        omega

/-- Left-right case of `balance`: left rotation of the left child, then right
rotation of the node. -/
theorem rotate_leftRight (v h : Int) (l r : Node) (hl : AVL l) (hr : AVL r)
    (hd : getHeight l = getHeight r + 2) (hb : getBalanceFactor l < 0) :
    ∃ t, ((rotateLeft l).bind fun l1 => rotateRight (.mk v l1 r h)) = some t ∧ AVL t
      ∧ keys t = keys l ++ v :: keys r ∧ getHeight t = getHeight l := by
  have hr0 := AVL_getHeight_nonneg hr
  cases l with
  | null => simp only [getHeight_null] at hd; omega
  | mk lv ll lr lh =>
      obtain ⟨h1, h2, h3, hll, hlr⟩ := hl
      have hll0 := AVL_getHeight_nonneg hll
      cases lr with
      | null => simp only [getHeight_mk, getBalanceFactor_mk, getHeight_null] at *; omega
      | mk cv cl cr ch =>
          obtain ⟨g1, g2, g3, hcl, hcr⟩ := hlr
          have := AVL_getHeight_nonneg hcl
          have := AVL_getHeight_nonneg hcr
          simp only [getHeight_mk, getBalanceFactor_mk] at *
          refine ⟨_, rfl, ?_, ?_, ?_⟩
          · simp only [updateHeight_mk, AVL_mk, getHeight_mk]
            refine ⟨trivial, ?_, ?_, ⟨trivial, ?_, ?_, hll, hcl⟩, ⟨trivial, ?_, ?_, hcr, hr⟩⟩
              <;> omega
          · simp [updateHeight_mk, keys_mk]
          · simp only [updateHeight_mk, getHeight_mk]
            omega

/-- Right-left case of `balance`: right rotation of the right child, then left
rotation of the node. -/
theorem rotate_rightLeft (v h : Int) (l r : Node) (hl : AVL l) (hr : AVL r)
    (hd : getHeight r = getHeight l + 2) (hb : getBalanceFactor r > 0) :
    ∃ t, ((rotateRight r).bind fun r1 => rotateLeft (.mk v l r1 h)) = some t ∧ AVL t
      ∧ keys t = keys l ++ v :: keys r ∧ getHeight t = getHeight r := by
  have hl0 := AVL_getHeight_nonneg hl
  cases r with
  | null => simp only [getHeight_null] at hd; omega
  | mk rv rl rr rh =>
      obtain ⟨h1, h2, h3, hrl, hrr⟩ := hr
      have hrr0 := AVL_getHeight_nonneg hrr
      cases rl with
      | null => simp only [getHeight_mk, getBalanceFactor_mk, getHeight_null] at *; omega
      | mk cv cl cr ch =>
          obtain ⟨g1, g2, g3, hcl, hcr⟩ := hrl
          have := AVL_getHeight_nonneg hcl
          have := AVL_getHeight_nonneg hcr
          simp only [getHeight_mk, getBalanceFactor_mk] at *
          refine ⟨_, rfl, ?_, ?_, ?_⟩
          · simp only [updateHeight_mk, AVL_mk, getHeight_mk]
            refine ⟨trivial, ?_, ?_, ⟨trivial, ?_, ?_, hl, hcl⟩, ⟨trivial, ?_, ?_, hcr, hrr⟩⟩
              <;> omega
          · simp [updateHeight_mk, keys_mk]
          · simp only [updateHeight_mk, getHeight_mk]
            omega

/-- What `balance` does on a node whose subtrees satisfy the invariant and whose
heights differ by at most 2. -/
theorem balance_spec (v h : Int) (l r : Node) (hl : AVL l) (hr : AVL r)
    (hd1 : getHeight l - getHeight r ≤ 2) (hd2 : getHeight r - getHeight l ≤ 2) :
    ∃ t, balance (.mk v l r h) = some t ∧ AVL t ∧ keys t = keys l ++ v :: keys r
      ∧ (getHeight t = 1 + max (getHeight l) (getHeight r)
          ∨ (getHeight t = max (getHeight l) (getHeight r)
              ∧ (2 ≤ getHeight l - getHeight r ∨ 2 ≤ getHeight r - getHeight l)))
      ∧ (getHeight l - getHeight r ≤ 1 → getHeight r - getHeight l ≤ 1 →
          t = .mk v l r (1 + max (getHeight l) (getHeight r))) := by
  unfold balance
  simp only []
  split_ifs with c1 c2 c3 c4
  · obtain ⟨t, e, a, k, g⟩ := rotateRight_single v (1 + max (getHeight l) (getHeight r)) l r
      hl hr (by omega) c1.2
    exact ⟨t, e, a, k, by omega, by omega⟩
  · obtain ⟨t, e, a, k, g⟩ := rotate_leftRight v (1 + max (getHeight l) (getHeight r)) l r
      hl hr (by omega) c2.2
    exact ⟨t, e, a, k, by omega, by omega⟩
  · obtain ⟨t, e, a, k, g⟩ := rotateLeft_single v (1 + max (getHeight l) (getHeight r)) l r
      hl hr (by omega) c3.2
    exact ⟨t, e, a, k, by omega, by omega⟩
  · obtain ⟨t, e, a, k, g⟩ := rotate_rightLeft v (1 + max (getHeight l) (getHeight r)) l r
      hl hr (by omega) c4.2
    exact ⟨t, e, a, k, by omega, by omega⟩
  · refine ⟨_, rfl, ⟨rfl, ?_, ?_, hl, hr⟩, keys_mk _ _ _ _, Or.inl rfl, fun _ _ => rfl⟩
    · by_contra hc
      rcases Int.lt_or_le (getBalanceFactor l) 0 with q | q
      · exact c2 ⟨by omega, q⟩
      · exact c1 ⟨by omega, q⟩
    · by_contra hc
      rcases Int.lt_or_le 0 (getBalanceFactor r) with q | q
      · exact c4 ⟨by omega, q⟩
      · exact c3 ⟨by omega, q⟩

/-- On a node that already satisfies the invariant `balance` changes nothing. -/
theorem balance_of_AVL {n : Node} (hn : AVL n) : balance n = some n := by
  cases n with
  | null => rfl
  | mk v l r h =>
      obtain ⟨h1, h2, h3, hl, hr⟩ := hn
      obtain ⟨t, e, _, _, _, g⟩ := balance_spec v h l r hl hr (by omega) (by omega)
      rw [e, g h2 h3, h1]

end AVLTree

namespace AVLTree

theorem pairwise_node (l r : List Int) (v : Int) :
    (l ++ v :: r).Pairwise (· < ·) ↔
      l.Pairwise (· < ·) ∧ r.Pairwise (· < ·) ∧ (∀ x ∈ l, x < v) ∧ (∀ x ∈ r, v < x) := by
  rw [List.pairwise_append, List.pairwise_cons]
  constructor
  · rintro ⟨h1, ⟨h2, h3⟩, h4⟩
    exact ⟨h1, h3, fun x hx => h4 x hx v (List.mem_cons_self _ _), h2⟩
  · rintro ⟨h1, h2, h3, h4⟩
    refine ⟨h1, ⟨h4, h2⟩, fun a ha b hb => ?_⟩
    rcases List.mem_cons.1 hb with rfl | hb
    · exact h3 a ha
    · exact lt_trans (h3 a ha) (h4 b hb)

theorem isBST_iff_pairwise (n : Node) : IsBST n ↔ (keys n).Pairwise (· < ·) := by
  induction n with
  | null => simp [IsBST, keys_null]
  | mk v l r h ihl ihr =>
      rw [keys_mk, pairwise_node, ← ihl, ← ihr]
      simp only [IsBST]
      tauto

/-- The recursive `insert` on a subtree satisfying the invariants: it returns,
the result satisfies the invariants, holds the old keys and the new one, and is
as high as the old subtree or one higher. -/
theorem Node.insert_spec (t : Node) (k : Int) (ha : AVL t)
    (hs : (keys t).Pairwise (· < ·)) :
    ∃ t1, Node.insert t k = some t1 ∧ AVL t1 ∧ (keys t1).Pairwise (· < ·)
      ∧ (∀ x, x ∈ keys t1 ↔ x = k ∨ x ∈ keys t)
      ∧ getHeight t ≤ getHeight t1 ∧ getHeight t1 ≤ getHeight t + 1 := by
  induction t with
  | null =>
      refine ⟨_, rfl, ⟨rfl, ?_, ?_, trivial, trivial⟩, ?_, ?_, ?_, ?_⟩ <;>
        simp [keys_mk, keys_null, getHeight_null, getHeight_mk]
  | mk v l r h ihl ihr =>
      obtain ⟨h1, h2, h3, hl, hr⟩ := ha
      rw [keys_mk, pairwise_node] at hs
      obtain ⟨sl, sr, bl, br⟩ := hs
      unfold Node.insert
      split_ifs with c1 c2
      · obtain ⟨l1, e1, a1, s1, m1, g1, g2⟩ := ihl hl sl
        obtain ⟨t, e, a, kq, g, _⟩ := balance_spec v h l1 r a1 hr (by omega) (by omega)
        refine ⟨t, by rw [e1]; exact e, a, ?_, ?_, ?_, ?_⟩
        · rw [kq, pairwise_node]
          refine ⟨s1, sr, fun x hx => ?_, br⟩
          rcases (m1 x).1 hx with rfl | hx
          · exact c1
          · exact bl x hx
        · intro x
          rw [kq, keys_mk]
          simp only [List.mem_append, List.mem_cons, m1, or_assoc]
        · simp only [getHeight_mk]; omega
        · simp only [getHeight_mk]; omega
      · obtain ⟨r1, e1, a1, s1, m1, g1, g2⟩ := ihr hr sr
        obtain ⟨t, e, a, kq, g, _⟩ := balance_spec v h l r1 hl a1 (by omega) (by omega)
        refine ⟨t, by rw [e1]; exact e, a, ?_, ?_, ?_, ?_⟩
        · rw [kq, pairwise_node]
          refine ⟨sl, s1, bl, fun x hx => ?_⟩
          rcases (m1 x).1 hx with rfl | hx
          · exact c2
          · exact br x hx
        · intro x
          rw [kq, keys_mk]
          simp only [List.mem_append, List.mem_cons, m1]
          constructor
          · rintro (hx | hx | hx | hx)
            · exact Or.inr (Or.inl hx)
            · exact Or.inr (Or.inr (Or.inl hx))
            · exact Or.inl hx
            · exact Or.inr (Or.inr (Or.inr hx))
          · rintro (hx | hx | hx | hx)
            · exact Or.inr (Or.inr (Or.inl hx))
            · exact Or.inl hx
            · exact Or.inr (Or.inl hx)
            · exact Or.inr (Or.inr (Or.inr hx))
        · simp only [getHeight_mk]; omega
        · simp only [getHeight_mk]; omega
      · have hk : k = v := by omega
        subst hk
        refine ⟨_, rfl, ⟨h1, h2, h3, hl, hr⟩, ?_, ?_, le_refl _, by omega⟩
        · rw [keys_mk, pairwise_node]; exact ⟨sl, sr, bl, br⟩
        · intro x
          rw [keys_mk]
          simp only [List.mem_append, List.mem_cons]
          constructor
          · intro hx; exact Or.inr hx
          · rintro (rfl | hx)
            · exact Or.inr (Or.inl rfl)
            · exact hx

/-- `findMin` of a non-null subtree returns the node holding its first in-order key. -/
theorem findMin_spec (n : Node) (hn : n.isNull = false) :
    ∃ tv tl tr th rest, findMin n = .mk tv tl tr th ∧ keys n = tv :: rest := by
  induction n with
  | null => simp [Node.isNull] at hn
  | mk v l r h ihl _ =>
      cases l with
      | null => exact ⟨v, .null, r, h, keys r, rfl, by simp [keys_mk, keys_null]⟩
      | mk lv ll lr lh =>
          obtain ⟨tv, tl, tr, th, rest, e, kq⟩ := ihl rfl
          refine ⟨tv, tl, tr, th, rest ++ v :: keys r, ?_, ?_⟩
          · rw [← e]; rfl
          · rw [keys_mk, kq]; rfl

theorem Node.remove_lt (v h k : Int) (l r : Node) (c : k < v) :
    Node.remove (.mk v l r h) k = (Node.remove l k).bind fun l1 => balance (.mk v l1 r h) := by
  rw [Node.remove, if_pos c]

theorem Node.remove_gt (v h k : Int) (l r : Node) (c : k > v) :
    Node.remove (.mk v l r h) k = (Node.remove r k).bind fun r1 => balance (.mk v l r1 h) := by
  have c1 : ¬ k < v := by omega
  rw [Node.remove, if_neg c1, if_pos c]

theorem Node.remove_leaf (v h : Int) : Node.remove (.mk v .null .null h) v = some .null := by
  simp [Node.remove, Node.isNull]

theorem Node.remove_only_right (v h rv rh : Int) (rl rr : Node) :
    Node.remove (.mk v .null (.mk rv rl rr rh) h) v = balance (.mk rv rl rr rh) := by
  simp [Node.remove, Node.isNull]

theorem Node.remove_only_left (v h lv lh : Int) (ll lr : Node) :
    Node.remove (.mk v (.mk lv ll lr lh) .null h) v = balance (.mk lv ll lr lh) := by
  simp [Node.remove, Node.isNull]

theorem Node.remove_two (v h lv lh rv rh : Int) (ll lr rl rr : Node) :
    Node.remove (.mk v (.mk lv ll lr lh) (.mk rv rl rr rh) h) v =
      match findMin (.mk rv rl rr rh) with
      | .null => none
      | .mk tv _ _ _ =>
          (Node.remove (.mk rv rl rr rh) tv).bind fun r1 =>
            balance (.mk tv (.mk lv ll lr lh) r1 h) := by
  rw [Node.remove]
  simp [Node.isNull]

/-- The recursive `remove` on a subtree satisfying the invariants: it returns,
the result satisfies the invariants, holds the old keys but the removed one, and
is as high as the old subtree or one lower. -/
theorem Node.remove_spec (t : Node) (k : Int) (ha : AVL t)
    (hs : (keys t).Pairwise (· < ·)) :
    ∃ t1, Node.remove t k = some t1 ∧ AVL t1 ∧ (keys t1).Pairwise (· < ·)
      ∧ (∀ x, x ∈ keys t1 ↔ x ∈ keys t ∧ x ≠ k)
      ∧ getHeight t1 ≤ getHeight t ∧ getHeight t ≤ getHeight t1 + 1 := by
  induction t generalizing k with
  | null =>
      exact ⟨_, rfl, trivial, hs, by simp [keys_null], le_refl _, by omega⟩
  | mk v l r h ihl ihr =>
      obtain ⟨h1, h2, h3, hl, hr⟩ := ha
      rw [keys_mk, pairwise_node] at hs
      obtain ⟨sl, sr, bl, br⟩ := hs
      have hl0 := AVL_getHeight_nonneg hl
      have hr0 := AVL_getHeight_nonneg hr
      rcases lt_trichotomy k v with c | c | c
      · rw [Node.remove_lt v h k l r c]
        obtain ⟨l1, e1, a1, s1, m1, g1, g2⟩ := ihl k hl sl
        obtain ⟨t, e, a, kq, g, _⟩ := balance_spec v h l1 r a1 hr (by omega) (by omega)
        refine ⟨t, by rw [e1]; exact e, a, ?_, ?_, ?_, ?_⟩
        · rw [kq, pairwise_node]
          exact ⟨s1, sr, fun x hx => bl x ((m1 x).1 hx).1, br⟩
        · intro x
          rw [kq, keys_mk]
          simp only [List.mem_append, List.mem_cons, m1]
          constructor
          · rintro (⟨hx, hne⟩ | rfl | hx)
            · exact ⟨Or.inl hx, hne⟩
            · exact ⟨Or.inr (Or.inl rfl), by omega⟩
            · exact ⟨Or.inr (Or.inr hx), by have := br x hx; omega⟩
          · rintro ⟨hx | rfl | hx, hne⟩
            · exact Or.inl ⟨hx, hne⟩
            · exact Or.inr (Or.inl rfl)
            · exact Or.inr (Or.inr hx)
        · simp only [getHeight_mk]; omega
        · simp only [getHeight_mk]; omega
      · subst c
        cases l with
        | null =>
            cases r with
            | null =>
                rw [Node.remove_leaf]
                refine ⟨_, rfl, trivial, List.Pairwise.nil, ?_, ?_, ?_⟩
                · intro x; simp [keys_mk, keys_null]
                · simp only [getHeight_null, getHeight_mk] at *; omega
                · simp only [getHeight_null, getHeight_mk] at *; omega
            | mk rv rl rr rh =>
                rw [Node.remove_only_right]
                refine ⟨_, balance_of_AVL hr, hr, sr, ?_, ?_, ?_⟩
                · intro x
                  rw [keys_mk k, keys_null]
                  simp only [List.nil_append, List.mem_cons]
                  constructor
                  · intro hx; exact ⟨Or.inr hx, by have := br x hx; omega⟩
                  · rintro ⟨rfl | hx, hne⟩
                    · exact absurd rfl hne
                    · exact hx
                · simp only [getHeight_null, getHeight_mk] at *; omega
                · simp only [getHeight_null, getHeight_mk] at *; omega
        | mk lv ll lr lh =>
            cases r with
            | null =>
                rw [Node.remove_only_left]
                refine ⟨_, balance_of_AVL hl, hl, sl, ?_, ?_, ?_⟩
                · intro x
                  rw [keys_mk k, keys_null]
                  simp only [List.mem_append, List.mem_cons, List.not_mem_nil, or_false]
                  constructor
                  · intro hx; exact ⟨Or.inl hx, by have := bl x hx; omega⟩
                  · rintro ⟨hx | rfl, hne⟩
                    · exact hx
                    · exact absurd rfl hne
                · simp only [getHeight_null, getHeight_mk] at *; omega
                · simp only [getHeight_null, getHeight_mk] at *; omega
            | mk rv rl rr rh =>
                rw [Node.remove_two]
                obtain ⟨tv, tl, tr, th, rest, e, kq⟩ := findMin_spec (.mk rv rl rr rh) rfl
                rw [e]
                simp only []
                obtain ⟨r1, e1, a1, s1, m1, g1, g2⟩ := ihr tv hr sr
                obtain ⟨t, e2, a, kq2, g, _⟩ :=
                  balance_spec tv h (.mk lv ll lr lh) r1 hl a1 (by omega) (by omega)
                have htv : tv ∈ keys (.mk rv rl rr rh) := by
                  rw [kq]; exact List.mem_cons_self _ _
                have hmin : ∀ x ∈ keys (.mk rv rl rr rh), x ≠ tv → tv < x := by
                  intro x hx hne
                  rw [kq] at hx sr
                  rcases List.mem_cons.1 hx with rfl | hx
                  · exact absurd rfl hne
                  · exact (List.pairwise_cons.1 sr).1 x hx
                refine ⟨t, by rw [e1]; exact e2, a, ?_, ?_, ?_, ?_⟩
                · rw [kq2, pairwise_node]
                  refine ⟨sl, s1, fun x hx => lt_trans (bl x hx) (br tv htv), fun x hx => ?_⟩
                  exact hmin x ((m1 x).1 hx).1 ((m1 x).1 hx).2
                · intro x
                  rw [kq2, keys_mk k]
                  simp only [List.mem_append, List.mem_cons, m1]
                  constructor
                  · rintro (hx | rfl | ⟨hx, hne⟩)
                    · exact ⟨Or.inl hx, by have := bl x hx; omega⟩
                    · exact ⟨Or.inr (Or.inr htv), by have := br x htv; omega⟩
                    · exact ⟨Or.inr (Or.inr hx), by have := br x hx; omega⟩
                  · rintro ⟨hx | rfl | hx, hne⟩
                    · exact Or.inl hx
                    · exact absurd rfl hne
                    · by_cases hxt : x = tv
                      · exact Or.inr (Or.inl hxt)
                      · exact Or.inr (Or.inr ⟨hx, hxt⟩)
                · simp only [getHeight_mk] at *; omega
                · simp only [getHeight_mk] at *; omega
      · rw [Node.remove_gt v h k l r c]
        obtain ⟨r1, e1, a1, s1, m1, g1, g2⟩ := ihr k hr sr
        obtain ⟨t, e, a, kq, g, _⟩ := balance_spec v h l r1 hl a1 (by omega) (by omega)
        refine ⟨t, by rw [e1]; exact e, a, ?_, ?_, ?_, ?_⟩
        · rw [kq, pairwise_node]
          exact ⟨sl, s1, bl, fun x hx => br x ((m1 x).1 hx).1⟩
        · intro x
          rw [kq, keys_mk]
          simp only [List.mem_append, List.mem_cons, m1]
          constructor
          · rintro (hx | rfl | ⟨hx, hne⟩)
            · exact ⟨Or.inl hx, by have := bl x hx; omega⟩
            · exact ⟨Or.inr (Or.inl rfl), by omega⟩
            · exact ⟨Or.inr (Or.inr hx), hne⟩
          · rintro ⟨hx | rfl | hx, hne⟩
            · exact Or.inl hx
            · exact Or.inr (Or.inl rfl)
            · exact Or.inr (Or.inr ⟨hx, hne⟩)
        · simp only [getHeight_mk]; omega
        · simp only [getHeight_mk]; omega

end AVLTree

namespace AVLTree

theorem getHeight_eq_trueHeight {n : Node} (hn : HeightsOK n) : getHeight n = trueHeight n := by
  induction n with
  | null => rfl
  | mk v l r h ihl ihr =>
      obtain ⟨h1, hl, hr⟩ := hn
      rw [getHeight_mk, h1, ihl hl, ihr hr]
      rfl

theorem AVL_iff (n : Node) : AVL n ↔ IsBalanced n ∧ HeightsOK n := by
  induction n with
  | null => simp [AVL, IsBalanced, HeightsOK]
  | mk v l r h ihl ihr =>
      constructor
      · rintro ⟨h1, h2, h3, hl, hr⟩
        have bl := (ihl.1 hl)
        have br := (ihr.1 hr)
        have el := getHeight_eq_trueHeight bl.2
        have er := getHeight_eq_trueHeight br.2
        exact ⟨⟨by omega, by omega, bl.1, br.1⟩, ⟨h1, bl.2, br.2⟩⟩
      · rintro ⟨⟨h2, h3, bl, br⟩, ⟨h1, ol, or⟩⟩
        have el := getHeight_eq_trueHeight ol
        have er := getHeight_eq_trueHeight or
        exact ⟨h1, by omega, by omega, ihl.2 ⟨bl, ol⟩, ihr.2 ⟨br, or⟩⟩

theorem cachedHeightsTrue_of_heightsOK {n : Node} (hn : HeightsOK n) : CachedHeightsTrue n := by
  induction n with
  | null => trivial
  | mk v l r h ihl ihr =>
      exact ⟨(getHeight_eq_trueHeight hn : getHeight (.mk v l r h) = _), ihl hn.2.1, ihr hn.2.2⟩

theorem containsLoop_iff (n : Node) (k : Int) (hs : (keys n).Pairwise (· < ·)) :
    containsLoop n k = true ↔ k ∈ keys n := by
  induction n with
  | null => simp [containsLoop, keys_null]
  | mk v l r h ihl ihr =>
      rw [keys_mk, pairwise_node] at hs
      obtain ⟨sl, sr, bl, br⟩ := hs
      rw [keys_mk, List.mem_append, List.mem_cons]
      unfold containsLoop
      split_ifs with c1 c2
      · simp [c1]
      · rw [ihl sl]
        constructor
        · exact Or.inl
        · rintro (hx | hx | hx)
          · exact hx
          · exact absurd hx c1
          · have := br k hx; omega
      · rw [ihr sr]
        constructor
        · exact fun hx => Or.inr (Or.inr hx)
        · rintro (hx | hx | hx)
          · have := bl k hx; omega
          · exact absurd hx c1
          · exact hx

/-- Two strictly increasing lists with the same members are equal. -/
theorem eq_of_pairwise_lt_of_mem_iff {l1 l2 : List Int} (h1 : l1.Pairwise (· < ·))
    (h2 : l2.Pairwise (· < ·)) (hm : ∀ x, x ∈ l1 ↔ x ∈ l2) : l1 = l2 := by
  have n1 : l1.Nodup := List.Sorted.nodup h1
  have n2 : l2.Nodup := List.Sorted.nodup h2
  exact List.eq_of_perm_of_sorted ((List.perm_ext_iff_of_nodup n1 n2).2 hm) h1 h2

theorem pairwise_lt_orderedInsert {l : List Int} (k : Int) (hl : l.Pairwise (· < ·))
    (hk : k ∉ l) : (List.orderedInsert (· ≤ ·) k l).Pairwise (· < ·) := by
  have s1 : l.Sorted (· ≤ ·) := List.Sorted.le_of_lt hl
  have s2 := List.Sorted.orderedInsert k l s1
  have n1 : l.Nodup := List.Sorted.nodup hl
  have n2 : (List.orderedInsert (· ≤ ·) k l).Nodup :=
    (List.perm_orderedInsert (· ≤ ·) k l).nodup_iff.2 (List.nodup_cons.2 ⟨hk, n1⟩)
  exact List.Sorted.lt_of_le s2 n2

theorem inv_empty : Inv empty := ⟨trivial, List.Pairwise.nil⟩

/-- Public `insert` on an object satisfying the invariant. -/
theorem insert_inv (t : AVLTree) (k : Int) (ht : Inv t) :
    ∃ t1, t.insert k = some t1 ∧ Inv t1
      ∧ (∀ x, x ∈ toInOrderList t1 ↔ x = k ∨ x ∈ toInOrderList t)
      ∧ getHeight t.root ≤ getHeight t1.root ∧ getHeight t1.root ≤ getHeight t.root + 1 := by
  obtain ⟨n, e, a, s, m, g1, g2⟩ := Node.insert_spec t.root k ht.1 ht.2
  exact ⟨⟨n⟩, by simp [insert, e], ⟨a, s⟩, m, g1, g2⟩

/-- Public `remove` on an object satisfying the invariant. -/
theorem remove_inv (t : AVLTree) (k : Int) (ht : Inv t) :
    ∃ t1, t.remove k = some t1 ∧ Inv t1
      ∧ (∀ x, x ∈ toInOrderList t1 ↔ x ∈ toInOrderList t ∧ x ≠ k)
      ∧ getHeight t1.root ≤ getHeight t.root ∧ getHeight t.root ≤ getHeight t1.root + 1 := by
  obtain ⟨n, e, a, s, m, g1, g2⟩ := Node.remove_spec t.root k ht.1 ht.2
  exact ⟨⟨n⟩, by simp [remove, e], ⟨a, s⟩, m, g1, g2⟩

theorem applyOp_inv (t : AVLTree) (op : Op) (ht : Inv t) :
    ∃ t1, applyOp t op = some t1 ∧ Inv t1 := by
  cases op with
  | ins k => obtain ⟨t1, e, i, _⟩ := insert_inv t k ht; exact ⟨t1, e, i⟩
  | rem k => obtain ⟨t1, e, i, _⟩ := remove_inv t k ht; exact ⟨t1, e, i⟩

/-- Every finite sequence of public calls on an object satisfying the invariant
runs to the end, and the invariant holds on the result. -/
theorem runOps_inv (ops : List Op) (t : AVLTree) (ht : Inv t) :
    ∃ t1, runOps t ops = some t1 ∧ Inv t1 := by
  induction ops generalizing t with
  | nil => exact ⟨t, rfl, ht⟩
  | cons op ops ih =>
      obtain ⟨t1, e1, i1⟩ := applyOp_inv t op ht
      obtain ⟨t2, e2, i2⟩ := ih t1 i1
      exact ⟨t2, by simp [runOps, e1, e2], i2⟩

theorem reachable_inv {t : AVLTree} (ht : Reachable t) : Inv t := by
  obtain ⟨ops, e⟩ := ht
  obtain ⟨t1, e1, i1⟩ := runOps_inv ops empty inv_empty
  rw [e] at e1
  cases e1
  exact i1

/-- On a node satisfying the invariant `balance` takes none of its rotating
branches. -/
theorem balanceRotates_of_AVL {n : Node} (hn : AVL n) : balanceRotates n = false := by
  cases n with
  | null => rfl
  | mk v l r h =>
      obtain ⟨_, h2, h3, _, _⟩ := hn
      simp only [balanceRotates, decide_eq_false_iff_not]
      omega

theorem AVL_of_mem_searchPath {n m : Node} {k : Int} (hn : AVL n) (hm : m ∈ searchPath n k) :
    AVL m := by
  induction n with
  | null => simp [searchPath] at hm
  | mk v l r h ihl ihr =>
      unfold searchPath at hm
      rcases List.mem_cons.1 hm with rfl | hm
      · exact hn
      · split_ifs at hm with c1 c2
        · exact ihl hn.2.2.2.1 hm
        · exact ihr hn.2.2.2.2 hm
        · simp at hm

/-- Inserting a key that is present returns the subtree as it was. -/
theorem Node.insert_of_mem (t : Node) (k : Int) (ha : AVL t)
    (hs : (keys t).Pairwise (· < ·)) (hk : k ∈ keys t) : Node.insert t k = some t := by
  induction t with
  | null => simp [keys_null] at hk
  | mk v l r h ihl ihr =>
      have ha0 := ha
      obtain ⟨h1, h2, h3, hl, hr⟩ := ha
      rw [keys_mk, pairwise_node] at hs
      obtain ⟨sl, sr, bl, br⟩ := hs
      rw [keys_mk, List.mem_append, List.mem_cons] at hk
      unfold Node.insert
      split_ifs with c1 c2
      · have hkl : k ∈ keys l := by
          rcases hk with hx | hx | hx
          · exact hx
          · omega
          · have := br k hx; omega
        rw [ihl hl sl hkl]
        exact balance_of_AVL ha0
      · have hkr : k ∈ keys r := by
          rcases hk with hx | hx | hx
          · have := bl k hx; omega
          · omega
          · exact hx
        rw [ihr hr sr hkr]
        exact balance_of_AVL ha0
      · rfl

/-- Removing a key that is absent returns the subtree as it was. -/
theorem Node.remove_of_not_mem (t : Node) (k : Int) (ha : AVL t)
    (hk : k ∉ keys t) : Node.remove t k = some t := by
  induction t with
  | null => rfl
  | mk v l r h ihl ihr =>
      have ha0 := ha
      obtain ⟨h1, h2, h3, hl, hr⟩ := ha
      rw [keys_mk, List.mem_append, List.mem_cons] at hk
      rcases lt_trichotomy k v with c | c | c
      · rw [Node.remove_lt v h k l r c, ihl hl (fun hx => hk (Or.inl hx))]
        exact balance_of_AVL ha0
      · exact absurd (Or.inr (Or.inl c)) hk
      · rw [Node.remove_gt v h k l r c, ihr hr (fun hx => hk (Or.inr (Or.inr hx)))]
        exact balance_of_AVL ha0

end AVLTree

namespace AVLTree

/-- When none of the four rotating conditions holds, `balance` only recomputes
the cached height of the node. -/
theorem balance_of_not_rotates {n : Node} (hn : balanceRotates n = false) :
    balance n = some (updateHeight n) := by
  cases n with
  | null => rfl
  | mk v l r h =>
      simp only [balanceRotates, decide_eq_false_iff_not, not_or] at hn
      obtain ⟨c1, c2, c3, c4⟩ := hn
      unfold balance
      simp only []
      rw [if_neg c1, if_neg c2, if_neg c3, if_neg c4]
      rfl

end AVLTree

namespace AVLTree

/-! The claims -/

/-- C1. BST invariant: in every tree reachable from the empty tree by a finite
sequence of public `insert` / `remove` calls, at every node all keys of the left
subtree are strictly below the key of the node and all keys of the right subtree
strictly above. -/
theorem bst_invariant (t : AVLTree) (h : Reachable t) : IsBST t.root :=
  (isBST_iff_pairwise t.root).2 (reachable_inv h).2

theorem bst_invariant_witness :
    Reachable ⟨.mk 20 (.mk 10 .null .null 1) (.mk 30 .null .null 1) 2⟩
      ∧ IsBST (.mk 20 (.mk 10 .null .null 1) (.mk 30 .null .null 1) 2) :=
  ⟨⟨[.ins 10, .ins 20, .ins 30], rfl⟩,
    bst_invariant ⟨.mk 20 (.mk 10 .null .null 1) (.mk 30 .null .null 1) 2⟩
      ⟨[.ins 10, .ins 20, .ins 30], rfl⟩⟩

/-- C2. AVL balance invariant: in every tree reachable from the empty tree by a
finite sequence of `insert` / `remove` calls, at every node the true heights of
the left and the right subtree differ by at most 1. -/
theorem balance_invariant (t : AVLTree) (h : Reachable t) : IsBalanced t.root :=
  ((AVL_iff t.root).1 (reachable_inv h).1).1

theorem balance_invariant_witness :
    Reachable ⟨.mk 20 (.mk 10 .null .null 1) (.mk 40 (.mk 30 .null .null 1) .null 2) 3⟩
      ∧ IsBalanced (.mk 20 (.mk 10 .null .null 1) (.mk 40 (.mk 30 .null .null 1) .null 2) 3) :=
  ⟨⟨[.ins 10, .ins 20, .ins 40, .ins 30], rfl⟩,
    balance_invariant ⟨.mk 20 (.mk 10 .null .null 1) (.mk 40 (.mk 30 .null .null 1) .null 2) 3⟩
      ⟨[.ins 10, .ins 20, .ins 40, .ins 30], rfl⟩⟩

/-- C3. Cached-height invariant: in every tree reachable from the empty tree by
a finite sequence of `insert` / `remove` calls, the height field of every node
is `1 + max` of the heights of its children, an absent child counting 0, and it
is the true height of the subtree of that node. -/
theorem cached_height_invariant (t : AVLTree) (h : Reachable t) :
    HeightsOK t.root ∧ CachedHeightsTrue t.root :=
  ⟨((AVL_iff t.root).1 (reachable_inv h).1).2,
    cachedHeightsTrue_of_heightsOK ((AVL_iff t.root).1 (reachable_inv h).1).2⟩

theorem cached_height_invariant_witness :
    Reachable ⟨.mk 20 (.mk 5 .null .null 1) (.mk 30 .null .null 1) 2⟩
      ∧ HeightsOK (.mk 20 (.mk 5 .null .null 1) (.mk 30 .null .null 1) 2)
      ∧ CachedHeightsTrue (.mk 20 (.mk 5 .null .null 1) (.mk 30 .null .null 1) 2) :=
  ⟨⟨[.ins 10, .ins 20, .ins 30, .ins 5, .ins 20, .rem 10], rfl⟩,
    cached_height_invariant ⟨.mk 20 (.mk 5 .null .null 1) (.mk 30 .null .null 1) 2⟩
      ⟨[.ins 10, .ins 20, .ins 30, .ins 5, .ins 20, .rem 10], rfl⟩⟩

/-- C4. In every tree reachable from the empty tree by a finite sequence of
`insert` / `remove` calls, `toInOrderList()` is sorted in ascending order and
holds no key twice: it is strictly increasing. -/
theorem inorder_strictly_increasing (t : AVLTree) (h : Reachable t) :
    (toInOrderList t).Sorted (· ≤ ·) ∧ (toInOrderList t).Nodup
      ∧ (toInOrderList t).Sorted (· < ·) :=
  ⟨List.Sorted.le_of_lt (reachable_inv h).2, List.Sorted.nodup (reachable_inv h).2,
    (reachable_inv h).2⟩

theorem inorder_strictly_increasing_witness :
    Reachable ⟨.mk 20 (.mk 10 .null .null 1) (.mk 30 .null (.mk 40 .null .null 1) 2) 3⟩
      ∧ (toInOrderList
          ⟨.mk 20 (.mk 10 .null .null 1) (.mk 30 .null (.mk 40 .null .null 1) 2) 3⟩).Sorted
            (· < ·) :=
  ⟨⟨[.ins 30, .ins 20, .ins 10, .ins 40], rfl⟩,
    (inorder_strictly_increasing
      ⟨.mk 20 (.mk 10 .null .null 1) (.mk 30 .null (.mk 40 .null .null 1) 2) 3⟩
      ⟨[.ins 30, .ins 20, .ins 10, .ins 40], rfl⟩).2.2⟩

/-- C5. `insert` adds exactly the given key.  On every reachable tree `t` and
for every key `k`, `insert(k)` returns; the keys afterwards are the keys of `t`
and `k`; `toInOrderList()` afterwards is the old list with `k` put at its sorted
position when `k` was absent, and the old list when `k` was present.  Inserting
into the empty tree gives the single node `k`, whose in-order list is `[k]`, and
inserting the keys of any list `ks` into the empty tree gives the sorted list of
`ks` without repetitions. -/
theorem insert_adds_key (t : AVLTree) (k : Int) (ks : List Int) (h : Reachable t) :
    (∃ t1, t.insert k = some t1
        ∧ (∀ x, x ∈ toInOrderList t1 ↔ x ∈ toInOrderList t ∨ x = k)
        ∧ (k ∉ toInOrderList t →
            toInOrderList t1 = List.orderedInsert (· ≤ ·) k (toInOrderList t))
        ∧ (k ∈ toInOrderList t → toInOrderList t1 = toInOrderList t))
      ∧ empty.insert k = some ⟨.mk k .null .null 1⟩
      ∧ toInOrderList ⟨.mk k .null .null 1⟩ = [k]
      ∧ ∃ t2, runOps empty (ks.map Op.ins) = some t2
          ∧ toInOrderList t2 = List.insertionSort (· ≤ ·) ks.dedup := by
  refine ⟨?_, rfl, rfl, ?_⟩
  · have ht := reachable_inv h
    obtain ⟨t1, e, i1, m, _, _⟩ := insert_inv t k ht
    refine ⟨t1, e, fun x => by rw [m x]; exact or_comm, fun hk => ?_, fun hk => ?_⟩
    · refine eq_of_pairwise_lt_of_mem_iff i1.2 (pairwise_lt_orderedInsert k ht.2 hk) ?_
      intro x
      rw [m x, List.mem_orderedInsert]
    · refine eq_of_pairwise_lt_of_mem_iff i1.2 ht.2 ?_
      intro x
      rw [m x]
      constructor
      · rintro (rfl | hx)
        · exact hk
        · exact hx
      · exact Or.inr
  · have key : ∀ (l : List Int) (t0 : AVLTree), Inv t0 →
        ∃ t2, runOps t0 (l.map Op.ins) = some t2 ∧ Inv t2
          ∧ ∀ x, x ∈ toInOrderList t2 ↔ x ∈ l ∨ x ∈ toInOrderList t0 := by
      intro l
      induction l with
      | nil => intro t0 h0; exact ⟨t0, rfl, h0, by simp⟩
      | cons a l ih =>
          intro t0 h0
          obtain ⟨t1, e1, i1, m1, _, _⟩ := insert_inv t0 a h0
          obtain ⟨t2, e2, i2, m2⟩ := ih t1 i1
          refine ⟨t2, by simp [runOps, applyOp, e1, e2], i2, fun x => ?_⟩
          rw [m2 x, m1 x, List.mem_cons]
          constructor
          · rintro (hx | hx | hx)
            · exact Or.inl (Or.inr hx)
            · exact Or.inl (Or.inl hx)
            · exact Or.inr hx
          · rintro ((hx | hx) | hx)
            · exact Or.inr (Or.inl hx)
            · exact Or.inl hx
            · exact Or.inr (Or.inr hx)
    obtain ⟨t2, e2, i2, m2⟩ := key ks empty inv_empty
    refine ⟨t2, e2, eq_of_pairwise_lt_of_mem_iff i2.2 ?_ ?_⟩
    · exact List.Sorted.lt_of_le (List.sorted_insertionSort (· ≤ ·) _)
        ((List.perm_insertionSort (· ≤ ·) _).nodup_iff.2 (List.nodup_dedup ks))
    · intro x
      rw [m2 x, List.mem_insertionSort, List.mem_dedup]
      constructor
      · rintro (hx | hx)
        · exact hx
        · exact absurd hx (List.not_mem_nil x)
      · exact Or.inl

theorem insert_adds_key_witness :
    Reachable ⟨.mk 20 (.mk 10 .null .null 1) (.mk 30 .null .null 1) 2⟩
      ∧ (∃ t1, insert ⟨.mk 20 (.mk 10 .null .null 1) (.mk 30 .null .null 1) 2⟩ 25 = some t1
          ∧ (25 ∉ toInOrderList ⟨.mk 20 (.mk 10 .null .null 1) (.mk 30 .null .null 1) 2⟩ →
              toInOrderList t1 = List.orderedInsert (· ≤ ·) 25
                (toInOrderList ⟨.mk 20 (.mk 10 .null .null 1) (.mk 30 .null .null 1) 2⟩)))
      ∧ ∃ t2, runOps empty ([3, 1, 2, 1].map Op.ins) = some t2
          ∧ toInOrderList t2 = List.insertionSort (· ≤ ·) [3, 1, 2, 1].dedup :=
  ⟨⟨[.ins 10, .ins 20, .ins 30], rfl⟩,
    (let ⟨t1, e, _, a, _⟩ :=
      (insert_adds_key ⟨.mk 20 (.mk 10 .null .null 1) (.mk 30 .null .null 1) 2⟩ 25 [3, 1, 2, 1]
        ⟨[.ins 10, .ins 20, .ins 30], rfl⟩).1
     ⟨t1, e, a⟩),
    (insert_adds_key ⟨.mk 20 (.mk 10 .null .null 1) (.mk 30 .null .null 1) 2⟩ 25 [3, 1, 2, 1]
        ⟨[.ins 10, .ins 20, .ins 30], rfl⟩).2.2.2⟩

/-- C6. `remove` deletes exactly the given key.  On every reachable tree `t` and
for every key `k`, `remove(k)` returns; the keys afterwards are the keys of `t`
other than `k`; `toInOrderList()` afterwards is the old list with `k` erased,
the other keys in the same order.  (The three cases of the found node are the
three branches of `Node.remove`, all covered.) -/
theorem remove_deletes_key (t : AVLTree) (k : Int) (h : Reachable t) :
    ∃ t1, t.remove k = some t1
      ∧ (∀ x, x ∈ toInOrderList t1 ↔ x ∈ toInOrderList t ∧ x ≠ k)
      ∧ toInOrderList t1 = (toInOrderList t).erase k := by
  have ht := reachable_inv h
  obtain ⟨t1, e, i1, m, _, _⟩ := remove_inv t k ht
  refine ⟨t1, e, m, eq_of_pairwise_lt_of_mem_iff i1.2 ?_ ?_⟩
  · exact List.Pairwise.sublist (List.erase_sublist k _) ht.2
  · intro x
    have hnd : (toInOrderList t).Nodup := List.Sorted.nodup ht.2
    rw [m x, hnd.mem_erase_iff]
    exact and_comm

theorem remove_deletes_key_witness :
    Reachable ⟨.mk 20 (.mk 10 .null .null 1) (.mk 30 .null .null 1) 2⟩
      ∧ ∃ t1, remove ⟨.mk 20 (.mk 10 .null .null 1) (.mk 30 .null .null 1) 2⟩ 20 = some t1
          ∧ (∀ x, x ∈ toInOrderList t1 ↔
              x ∈ toInOrderList ⟨.mk 20 (.mk 10 .null .null 1) (.mk 30 .null .null 1) 2⟩ ∧ x ≠ 20)
          ∧ toInOrderList t1 =
              (toInOrderList ⟨.mk 20 (.mk 10 .null .null 1) (.mk 30 .null .null 1) 2⟩).erase 20 :=
  ⟨⟨[.ins 10, .ins 20, .ins 30], rfl⟩,
    remove_deletes_key ⟨.mk 20 (.mk 10 .null .null 1) (.mk 30 .null .null 1) 2⟩ 20
      ⟨[.ins 10, .ins 20, .ins 30], rfl⟩⟩

/-- C7. `contains` is membership lookup: on every reachable tree and for every
key `k`, `contains(k)` returns true if and only if `k` occurs in
`toInOrderList()`; and `contains` leaves the tree as it was. -/
theorem contains_iff_mem (t : AVLTree) (k : Int) (h : Reachable t) :
    ((t.contains k).1 = true ↔ k ∈ toInOrderList t) ∧ (t.contains k).2 = t :=
  ⟨containsLoop_iff t.root k (reachable_inv h).2, rfl⟩

theorem contains_iff_mem_witness :
    Reachable ⟨.mk 20 (.mk 10 .null .null 1) (.mk 30 .null .null 1) 2⟩
      ∧ ((contains ⟨.mk 20 (.mk 10 .null .null 1) (.mk 30 .null .null 1) 2⟩ 30).1 = true ↔
          30 ∈ toInOrderList ⟨.mk 20 (.mk 10 .null .null 1) (.mk 30 .null .null 1) 2⟩) :=
  ⟨⟨[.ins 10, .ins 20, .ins 30], rfl⟩,
    (contains_iff_mem ⟨.mk 20 (.mk 10 .null .null 1) (.mk 30 .null .null 1) 2⟩ 30
      ⟨[.ins 10, .ins 20, .ins 30], rfl⟩).1⟩

/-- C8. Round trip: on every reachable tree and for every key `k`, `insert(k)`
returns and `contains(k)` is true right after it, and `remove(k)` returns and
`contains(k)` is false right after it. -/
theorem round_trip (t : AVLTree) (k : Int) (h : Reachable t) :
    (∃ t1, t.insert k = some t1 ∧ (t1.contains k).1 = true)
      ∧ (∃ t2, t.remove k = some t2 ∧ (t2.contains k).1 = false) := by
  have ht := reachable_inv h
  constructor
  · obtain ⟨t1, e, i1, m, _, _⟩ := insert_inv t k ht
    exact ⟨t1, e, (containsLoop_iff t1.root k i1.2).2 ((m k).2 (Or.inl rfl))⟩
  · obtain ⟨t2, e, i2, m, _, _⟩ := remove_inv t k ht
    refine ⟨t2, e, ?_⟩
    cases hc : (t2.contains k).1 with
    | false => rfl
    | true => exact absurd rfl ((m k).1 ((containsLoop_iff t2.root k i2.2).1 hc)).2

theorem round_trip_witness :
    Reachable ⟨.mk 20 (.mk 10 .null .null 1) (.mk 30 .null .null 1) 2⟩
      ∧ (∃ t1, insert ⟨.mk 20 (.mk 10 .null .null 1) (.mk 30 .null .null 1) 2⟩ 15 = some t1
          ∧ (t1.contains 15).1 = true)
      ∧ (∃ t2, remove ⟨.mk 20 (.mk 10 .null .null 1) (.mk 30 .null .null 1) 2⟩ 15 = some t2
          ∧ (t2.contains 15).1 = false) :=
  ⟨⟨[.ins 10, .ins 20, .ins 30], rfl⟩,
    round_trip ⟨.mk 20 (.mk 10 .null .null 1) (.mk 30 .null .null 1) 2⟩ 15
      ⟨[.ins 10, .ins 20, .ins 30], rfl⟩⟩

/-- C9. Duplicate insert is a no-op: on every reachable tree `t`, inserting a
key `k` that is in `t` returns `t` itself (same shape, keys and cached heights),
`balance` returning unchanged every node of the search path it is run on without
taking a rotating branch; hence `insert(k)` after `insert(k)` gives what one
`insert(k)` gives, with the same in-order list and the same size. -/
theorem duplicate_insert_noop (t : AVLTree) (k : Int) (h : Reachable t) :
    (k ∈ toInOrderList t →
        t.insert k = some t
          ∧ ∀ n ∈ searchPath t.root k, balance n = some n ∧ balanceRotates n = false)
      ∧ ∃ t1, t.insert k = some t1 ∧ t1.insert k = some t1
          ∧ ∀ t2, t1.insert k = some t2 →
              toInOrderList t2 = toInOrderList t1
                ∧ (toInOrderList t2).length = (toInOrderList t1).length := by
  have ht := reachable_inv h
  constructor
  · intro hk
    refine ⟨by simp [insert, Node.insert_of_mem t.root k ht.1 ht.2 hk], fun n hn => ?_⟩
    have := AVL_of_mem_searchPath ht.1 hn
    exact ⟨balance_of_AVL this, balanceRotates_of_AVL this⟩
  · obtain ⟨t1, e, i1, m, _, _⟩ := insert_inv t k ht
    have e1 : t1.insert k = some t1 := by
      simp [insert, Node.insert_of_mem t1.root k i1.1 i1.2 ((m k).2 (Or.inl rfl))]
    refine ⟨t1, e, e1, fun t2 e2 => ?_⟩
    rw [e1] at e2
    cases e2
    exact ⟨rfl, rfl⟩

theorem duplicate_insert_noop_witness :
    Reachable ⟨.mk 20 (.mk 10 .null .null 1) (.mk 30 .null .null 1) 2⟩
      ∧ 30 ∈ toInOrderList ⟨.mk 20 (.mk 10 .null .null 1) (.mk 30 .null .null 1) 2⟩
      ∧ insert ⟨.mk 20 (.mk 10 .null .null 1) (.mk 30 .null .null 1) 2⟩ 30
          = some ⟨.mk 20 (.mk 10 .null .null 1) (.mk 30 .null .null 1) 2⟩ :=
  ⟨⟨[.ins 10, .ins 20, .ins 30], rfl⟩, by decide,
    ((duplicate_insert_noop ⟨.mk 20 (.mk 10 .null .null 1) (.mk 30 .null .null 1) 2⟩ 30
      ⟨[.ins 10, .ins 20, .ins 30], rfl⟩).1 (by decide)).1⟩

/-- C10. Removing an absent key is a no-op: on every reachable tree `t`,
removing a key `k` that is not in `t` returns `t` itself (same shape, keys and
cached heights), `balance` taking no rotating branch on any node of the search
path, so the in-order list is unchanged; and `remove` on the empty tree gives
the empty tree. -/
theorem remove_absent_noop (t : AVLTree) (k : Int) (h : Reachable t)
    (hk : k ∉ toInOrderList t) :
    t.remove k = some t
      ∧ (∀ n ∈ searchPath t.root k, balanceRotates n = false ∧ balance n = some n)
      ∧ (∀ t1, t.remove k = some t1 → toInOrderList t1 = toInOrderList t)
      ∧ empty.remove k = some empty := by
  have ht := reachable_inv h
  have e : t.remove k = some t := by
    simp [remove, Node.remove_of_not_mem t.root k ht.1 hk]
  refine ⟨e, fun n hn => ?_, fun t1 e1 => ?_, rfl⟩
  · have := AVL_of_mem_searchPath ht.1 hn
    exact ⟨balanceRotates_of_AVL this, balance_of_AVL this⟩
  · rw [e] at e1
    cases e1
    rfl

theorem remove_absent_noop_witness :
    Reachable ⟨.mk 20 (.mk 10 .null .null 1) (.mk 30 .null .null 1) 2⟩
      ∧ 25 ∉ toInOrderList ⟨.mk 20 (.mk 10 .null .null 1) (.mk 30 .null .null 1) 2⟩
      ∧ remove ⟨.mk 20 (.mk 10 .null .null 1) (.mk 30 .null .null 1) 2⟩ 25
          = some ⟨.mk 20 (.mk 10 .null .null 1) (.mk 30 .null .null 1) 2⟩ :=
  ⟨⟨[.ins 10, .ins 20, .ins 30], rfl⟩, by decide,
    (remove_absent_noop ⟨.mk 20 (.mk 10 .null .null 1) (.mk 30 .null .null 1) 2⟩ 25
      ⟨[.ins 10, .ins 20, .ins 30], rfl⟩ (by decide)).1⟩

end AVLTree

namespace AVLTree

/-! Level order -/

theorem sizeL_append (a b : List Node) : sizeL (a ++ b) = sizeL a + sizeL b := by
  induction a with
  | nil => simp [sizeL]
  | cons x a ih =>
      show size x + sizeL (a ++ b) = size x + sizeL a + sizeL b
      rw [ih]; omega

theorem sizeL_children (n : Node) (hn : n.isNull = false) : sizeL (children n) + 1 = size n := by
  cases n with
  | null => simp [Node.isNull] at hn
  | mk v l r h =>
      cases l <;> cases r <;> simp [children, Node.isNull, sizeL, size]

theorem size_pos {n : Node} (hn : n.isNull = false) : 0 < size n := by
  cases n with
  | null => simp [Node.isNull] at hn
  | mk v l r h => simp [size]

theorem isNull_of_mem_children {n m : Node} (hm : m ∈ children n) : m.isNull = false := by
  cases n with
  | null => simp [children] at hm
  | mk v l r h =>
      cases l <;> cases r <;> simp [children, Node.isNull] at hm
      · subst hm; rfl
      · subst hm; rfl
      · rcases hm with rfl | rfl <;> rfl

theorem trueHeight_nonneg (n : Node) : 0 ≤ trueHeight n := by
  cases n with
  | null => simp [trueHeight]
  | mk v l r h =>
      have := trueHeight_nonneg l
      simp only [trueHeight]
      omega

theorem trueHeight_pos {n : Node} (hn : n.isNull = false) : 0 < trueHeight n := by
  cases n with
  | null => simp [Node.isNull] at hn
  | mk v l r h =>
      have := trueHeight_nonneg l
      simp only [trueHeight]
      omega

theorem trueHeight_of_mem_children {n m : Node} (hm : m ∈ children n) :
    trueHeight m + 1 ≤ trueHeight n := by
  cases n with
  | null => simp [children] at hm
  | mk v l r h =>
      have e : m = l ∨ m = r := by
        cases l <;> cases r <;> simp [children, Node.isNull] at hm
        · exact Or.inr hm
        · exact Or.inl hm
        · rcases hm with rfl | rfl
          · exact Or.inl rfl
          · exact Or.inr rfl
      simp only [trueHeight]
      rcases e with rfl | rfl <;> omega

theorem levelKeys_eq_nil (n : Node) (d : Nat) (hd : trueHeight n ≤ d) : levelKeys n d = [] := by
  induction n generalizing d with
  | null => cases d <;> rfl
  | mk v l r h ihl ihr =>
      have := trueHeight_nonneg l
      have := trueHeight_nonneg r
      simp only [trueHeight] at hd
      cases d with
      | zero => omega
      | succ d =>
          simp only [levelKeys]
          rw [ihl d (by omega), ihr d (by omega)]
          rfl

theorem forestLevel_nil (d : Nat) : forestLevel [] d = [] := rfl

theorem forestLevel_cons (n : Node) (ns : List Node) (d : Nat) :
    forestLevel (n :: ns) d = levelKeys n d ++ forestLevel ns d := by
  simp [forestLevel]

theorem forestLevel_append (a b : List Node) (d : Nat) :
    forestLevel (a ++ b) d = forestLevel a d ++ forestLevel b d := by
  simp [forestLevel]

theorem forestLevel_children_one (n : Node) (d : Nat) :
    forestLevel (children n) d = levelKeys n (d + 1) := by
  cases n with
  | null => rfl
  | mk v l r h =>
      cases l <;> cases r <;>
        simp [children, Node.isNull, forestLevel, levelKeys]

theorem forestLevel_children (ns : List Node) (d : Nat) :
    forestLevel (ns.flatMap children) d = forestLevel ns (d + 1) := by
  induction ns with
  | nil => rfl
  | cons n ns ih =>
      rw [List.flatMap_cons, forestLevel_append, forestLevel_cons, ih, forestLevel_children_one]

theorem forestLevel_eq_nil (ns : List Node) (d : Nat) (hd : ∀ n ∈ ns, trueHeight n ≤ d) :
    forestLevel ns d = [] := by
  induction ns with
  | nil => rfl
  | cons n ns ih =>
      rw [forestLevel_cons, levelKeys_eq_nil n d (hd n (List.mem_cons_self _ _)),
        ih (fun m hm => hd m (List.mem_cons_of_mem _ hm))]
      rfl

/-- One iteration of the queue loop on a non-null front node. -/
theorem levelOrderLoop_step (fuel : Nat) (v h : Int) (l r : Node) (q : List Node)
    (res : List Int) :
    levelOrderLoop (fuel + 1) (.mk v l r h :: q) res =
      levelOrderLoop fuel (q ++ children (.mk v l r h)) (res ++ [v]) := by
  cases l <;> cases r <;> simp [levelOrderLoop, children, Node.isNull]

/-- What remains to be written when the queue holds the rest `a` of the current
depth followed by the children of the part `b` of that depth already visited. -/
theorem levelOrderLoop_spec (fuel : Nat) :
    ∀ (a b : List Node) (res : List Int) (H : Nat),
      (∀ n ∈ a, n.isNull = false) → sizeL (a ++ b.flatMap children) ≤ fuel →
      (∀ n ∈ b ++ a, trueHeight n ≤ H + 1) →
      levelOrderLoop fuel (a ++ b.flatMap children) res =
        some (res ++ (forestLevel a 0
          ++ (List.range H).flatMap fun d => forestLevel (b ++ a) (d + 1))) := by
  induction fuel with
  | zero =>
      intro a b res H ha hs hh
      have hq : a ++ b.flatMap children = [] := by
        cases hq : a ++ b.flatMap children with
        | nil => rfl
        | cons x q =>
            rw [hq] at hs
            have hx : x ∈ a ++ b.flatMap children := by rw [hq]; exact List.mem_cons_self _ _
            have hxn : x.isNull = false := by
              rcases List.mem_append.1 hx with h1 | h1
              · exact ha x h1
              · obtain ⟨y, _, hy⟩ := List.mem_flatMap.1 h1
                exact isNull_of_mem_children hy
            have := size_pos hxn
            simp only [sizeL] at hs
            omega
      rw [hq]
      obtain ⟨ha0, hb0⟩ := List.append_eq_nil.1 hq
      subst ha0
      have hz : ∀ d, forestLevel b (d + 1) = [] := by
        intro d
        rw [← forestLevel_children, hb0]
        rfl
      simp [levelOrderLoop, forestLevel_nil, hz]
  | succ fuel ih =>
      have stepA : ∀ (x : Node) (a b : List Node) (res : List Int) (H : Nat),
          (∀ n ∈ x :: a, n.isNull = false) → sizeL ((x :: a) ++ b.flatMap children) ≤ fuel + 1 →
          (∀ n ∈ b ++ x :: a, trueHeight n ≤ H + 1) →
          levelOrderLoop (fuel + 1) ((x :: a) ++ b.flatMap children) res =
            some (res ++ (forestLevel (x :: a) 0
              ++ (List.range H).flatMap fun d => forestLevel (b ++ x :: a) (d + 1))) := by
        intro x a b res H ha hs hh
        have hx := ha x (List.mem_cons_self _ _)
        cases x with
        | null => simp [Node.isNull] at hx
        | mk v l r h =>
            have hsz := sizeL_children (.mk v l r h) rfl
            rw [List.cons_append, levelOrderLoop_step]
            have e : (a ++ b.flatMap children) ++ children (.mk v l r h)
                = a ++ (b ++ [Node.mk v l r h]).flatMap children := by
              simp [List.flatMap_append]
            rw [e]
            have hs1 : sizeL (a ++ (b ++ [Node.mk v l r h]).flatMap children) ≤ fuel := by
              rw [← e, sizeL_append]
              rw [List.cons_append] at hs
              simp only [sizeL] at hs
              omega
            have hh1 : ∀ n ∈ (b ++ [Node.mk v l r h]) ++ a, trueHeight n ≤ H + 1 := by
              intro n hn
              apply hh n
              simpa using hn
            rw [ih a (b ++ [Node.mk v l r h]) (res ++ [v]) H
              (fun n hn => ha n (List.mem_cons_of_mem _ hn)) hs1 hh1]
            have e2 : (b ++ [Node.mk v l r h]) ++ a = b ++ Node.mk v l r h :: a := by simp
            rw [e2, forestLevel_cons]
            simp [levelKeys]
      intro a b res H ha hs hh
      cases a with
      | cons x a => exact stepA x a b res H ha hs hh
      | nil =>
          rw [List.nil_append] at hs ⊢
          rw [List.append_nil] at hh
          cases hq : b.flatMap children with
          | nil =>
              have hz : ∀ d, forestLevel b (d + 1) = [] := by
                intro d
                rw [← forestLevel_children, hq]
                rfl
              simp [levelOrderLoop, forestLevel_nil, hz]
          | cons x q =>
              have hxm : x ∈ b.flatMap children := by rw [hq]; exact List.mem_cons_self _ _
              obtain ⟨y, hyb, hxy⟩ := List.mem_flatMap.1 hxm
              have h1 := trueHeight_of_mem_children hxy
              have h2 := trueHeight_pos (isNull_of_mem_children hxy)
              have h3 := hh y hyb
              obtain ⟨H1, rfl⟩ : ∃ H1, H = H1 + 1 := ⟨H - 1, by omega⟩
              have hnn : ∀ n ∈ x :: q, n.isNull = false := by
                intro n hn
                rw [← hq] at hn
                obtain ⟨z, _, hz⟩ := List.mem_flatMap.1 hn
                exact isNull_of_mem_children hz
              have hhq : ∀ n ∈ [] ++ x :: q, trueHeight n ≤ H1 + 1 := by
                intro n hn
                rw [List.nil_append, ← hq] at hn
                obtain ⟨z, hzb, hz⟩ := List.mem_flatMap.1 hn
                have := trueHeight_of_mem_children hz
                have := hh z hzb
                omega
              have key := stepA x q [] res H1 hnn
                (by simpa [hq] using hs) hhq
              simp only [List.flatMap_nil, List.append_nil, List.nil_append] at key
              have e3 : ((List.range (H1 + 1)).flatMap fun d => forestLevel b (d + 1))
                  = forestLevel (b.flatMap children) 0
                    ++ (List.range H1).flatMap fun d =>
                        forestLevel (b.flatMap children) (d + 1) := by
                rw [List.range_succ_eq_map, List.flatMap_cons, List.flatMap_map,
                  forestLevel_children]
                congr 1
                apply List.flatMap_congr
                intro d _
                exact (forestLevel_children b (d + 1)).symm
              rw [key, ← hq]
              simp only [List.append_nil, forestLevel_nil, List.nil_append, e3]

end AVLTree

namespace AVLTree

theorem forestLevel_singleton (n : Node) (d : Nat) : forestLevel [n] d = levelKeys n d := by
  simp [forestLevel]

/-- With fuel for one iteration per node, `levelOrderTraversal` returns the keys
by depth. -/
theorem levelOrderTraversal_eq (fuel : Nat) (n : Node) (hf : size n ≤ fuel) :
    levelOrderTraversal fuel n [] = some (byDepth n) := by
  cases n with
  | null => rfl
  | mk v l r h =>
      have hp := trueHeight_pos (n := .mk v l r h) rfl
      obtain ⟨H, hH⟩ : ∃ H : Nat, trueHeight (.mk v l r h) = (H : Int) + 1 :=
        ⟨(trueHeight (.mk v l r h)).toNat - 1, by omega⟩
      have key := levelOrderLoop_spec fuel [.mk v l r h] [] [] H
        (by intro n hn; rw [List.mem_singleton.1 hn]; rfl)
        (by simpa [sizeL] using hf)
        (by intro n hn; rw [List.nil_append, List.mem_singleton] at hn; rw [hn, hH])
      simp only [List.flatMap_nil, List.append_nil, List.nil_append] at key
      have e : levelOrderTraversal fuel (.mk v l r h) [] = levelOrderLoop fuel [.mk v l r h] [] := rfl
      rw [e, key]
      have e2 : (trueHeight (.mk v l r h)).toNat = H + 1 := by omega
      unfold byDepth
      rw [e2, List.range_succ_eq_map, List.flatMap_cons, List.flatMap_map, forestLevel_singleton]
      congr 2
      apply List.flatMap_congr
      intro d _
      exact forestLevel_singleton _ _

theorem flatMap_levelKeys_perm (n : Node) :
    ∀ H : Nat, trueHeight n ≤ H → ((List.range H).flatMap (levelKeys n)).Perm (keys n) := by
  induction n with
  | null =>
      intro H _
      have e : (List.range H).flatMap (levelKeys .null) = [] := by
        rw [List.flatMap_eq_nil_iff]
        intro d _
        cases d <;> rfl
      rw [e, keys_null]
  | mk v l r h ihl ihr =>
      intro H hH
      have := trueHeight_nonneg l
      have := trueHeight_nonneg r
      simp only [trueHeight] at hH
      obtain ⟨H1, rfl⟩ : ∃ H1, H = H1 + 1 := ⟨H - 1, by omega⟩
      rw [List.range_succ_eq_map, List.flatMap_cons, List.flatMap_map, keys_mk]
      have p1 := (List.flatMap_append_perm (List.range H1) (levelKeys l) (levelKeys r)).symm
      have p2 := (ihl H1 (by omega)).append (ihr H1 (by omega))
      have p3 := p1.trans p2
      show (v :: (List.range H1).flatMap fun d => levelKeys l d ++ levelKeys r d).Perm _
      exact (List.Perm.cons v p3).trans List.perm_middle.symm

theorem byDepth_perm (n : Node) : (byDepth n).Perm (keys n) := by
  unfold byDepth
  apply flatMap_levelKeys_perm n
  have := trueHeight_nonneg n
  omega

end AVLTree

namespace AVLTree

theorem heightsOK_getHeight_nonneg {n : Node} (hn : HeightsOK n) : 0 ≤ getHeight n := by
  cases n with
  | null => simp [getHeight_null]
  | mk v l r h =>
      obtain ⟨h1, hl, _⟩ := hn
      have := heightsOK_getHeight_nonneg hl
      simp only [getHeight_mk]
      omega

theorem rotateRight_isSome (v h : Int) (l r : Node) :
    (rotateRight (.mk v l r h)).isSome = !l.isNull := by
  cases l <;> rfl

theorem rotateLeft_isSome (v h : Int) (l r : Node) :
    (rotateLeft (.mk v l r h)).isSome = !r.isNull := by
  cases r <;> rfl

/-- With correct cached heights below it, a node whose left side is higher by
two or more has a left child, and a left child of negative balance factor has
a right child. -/
theorem left_heavy_children (l r : Node) (ol : HeightsOK l) (or : HeightsOK r)
    (hd : getHeight l - getHeight r > 1) :
    l.isNull = false
      ∧ (getBalanceFactor l < 0 → ∃ l1, rotateLeft l = some l1 ∧ l1.isNull = false) := by
  have hr0 := heightsOK_getHeight_nonneg or
  cases l with
  | null => simp only [getHeight_null] at hd; omega
  | mk lv ll lr lh =>
      refine ⟨rfl, fun hb => ?_⟩
      have hll := heightsOK_getHeight_nonneg ol.2.1
      cases lr with
      | null => simp only [getBalanceFactor_mk, getHeight_null] at hb; omega
      | mk cv cl cr ch => exact ⟨_, rfl, rfl⟩

theorem right_heavy_children (l r : Node) (ol : HeightsOK l) (or : HeightsOK r)
    (hd : getHeight l - getHeight r < -1) :
    r.isNull = false
      ∧ (getBalanceFactor r > 0 → ∃ r1, rotateRight r = some r1 ∧ r1.isNull = false) := by
  have hl0 := heightsOK_getHeight_nonneg ol
  cases r with
  | null => simp only [getHeight_null] at hd; omega
  | mk rv rl rr rh =>
      refine ⟨rfl, fun hb => ?_⟩
      have hrr := heightsOK_getHeight_nonneg or.2.2
      cases rl with
      | null => simp only [getBalanceFactor_mk, getHeight_null] at hb; omega
      | mk cv cl cr ch => exact ⟨_, rfl, rfl⟩

theorem rotateRight_some_of_left {v h : Int} {l r : Node} (hl : l.isNull = false) :
    ∃ t, rotateRight (.mk v l r h) = some t := by
  cases l with
  | null => simp [Node.isNull] at hl
  | mk _ _ _ _ => exact ⟨_, rfl⟩

theorem rotateLeft_some_of_right {v h : Int} {l r : Node} (hr : r.isNull = false) :
    ∃ t, rotateLeft (.mk v l r h) = some t := by
  cases r with
  | null => simp [Node.isNull] at hr
  | mk _ _ _ _ => exact ⟨_, rfl⟩

/-- With correct cached heights below the node, `balance` never reaches a null
dereference. -/
theorem balance_some (v h : Int) (l r : Node) (ol : HeightsOK l) (or : HeightsOK r) :
    ∃ t, balance (.mk v l r h) = some t := by
  unfold balance
  simp only []
  split_ifs with c1 c2 c3 c4
  · exact rotateRight_some_of_left (left_heavy_children l r ol or c1.1).1
  · obtain ⟨l1, e, n1⟩ := (left_heavy_children l r ol or c2.1).2 c2.2
    rw [e]
    exact rotateRight_some_of_left n1
  · exact rotateLeft_some_of_right (right_heavy_children l r ol or c3.1).1
  · obtain ⟨r1, e, n1⟩ := (right_heavy_children l r ol or c4.1).2 c4.2
    rw [e]
    exact rotateLeft_some_of_right n1
  · exact ⟨_, rfl⟩

theorem findMin_isNull (n : Node) (hn : n.isNull = false) : (findMin n).isNull = false := by
  obtain ⟨tv, tl, tr, th, _, e, _⟩ := findMin_spec n hn
  rw [e]
  rfl

/-- The nodes handed to `balance` during an insertion into a subtree satisfying
the invariants have subtree heights differing by at most 2. -/
theorem Node.insertBalanceArgs_spec (t : Node) (k : Int) (ha : AVL t)
    (hs : (keys t).Pairwise (· < ·)) :
    ∃ args, Node.insertBalanceArgs t k = some args
      ∧ ∀ n ∈ args, -2 ≤ getBalanceFactor n ∧ getBalanceFactor n ≤ 2 := by
  induction t with
  | null => exact ⟨[], rfl, fun n hn => absurd hn (List.not_mem_nil n)⟩
  | mk v l r h ihl ihr =>
      obtain ⟨h1, h2, h3, hl, hr⟩ := ha
      rw [keys_mk, pairwise_node] at hs
      obtain ⟨sl, sr, bl, br⟩ := hs
      unfold Node.insertBalanceArgs
      split_ifs with c1 c2
      · obtain ⟨l1, e1, _, _, _, g1, g2⟩ := Node.insert_spec l k hl sl
        obtain ⟨args, e2, hb⟩ := ihl hl sl
        refine ⟨args ++ [.mk v l1 r h], by simp [e1, e2], fun n hn => ?_⟩
        rcases List.mem_append.1 hn with hn | hn
        · exact hb n hn
        · rw [List.mem_singleton.1 hn, getBalanceFactor_mk]
          constructor <;> omega
      · obtain ⟨r1, e1, _, _, _, g1, g2⟩ := Node.insert_spec r k hr sr
        obtain ⟨args, e2, hb⟩ := ihr hr sr
        refine ⟨args ++ [.mk v l r1 h], by simp [e1, e2], fun n hn => ?_⟩
        rcases List.mem_append.1 hn with hn | hn
        · exact hb n hn
        · rw [List.mem_singleton.1 hn, getBalanceFactor_mk]
          constructor <;> omega
      · exact ⟨[], rfl, fun n hn => absurd hn (List.not_mem_nil n)⟩

theorem Node.removeBalanceArgs_lt (v h k : Int) (l r : Node) (c : k < v) :
    Node.removeBalanceArgs (.mk v l r h) k = (Node.remove l k).bind fun l1 =>
      (Node.removeBalanceArgs l k).map fun args => args ++ [.mk v l1 r h] := by
  rw [Node.removeBalanceArgs, if_pos c]

theorem Node.removeBalanceArgs_gt (v h k : Int) (l r : Node) (c : k > v) :
    Node.removeBalanceArgs (.mk v l r h) k = (Node.remove r k).bind fun r1 =>
      (Node.removeBalanceArgs r k).map fun args => args ++ [.mk v l r1 h] := by
  have c1 : ¬ k < v := by omega
  rw [Node.removeBalanceArgs, if_neg c1, if_pos c]

theorem Node.removeBalanceArgs_two (v h lv lh rv rh : Int) (ll lr rl rr : Node) :
    Node.removeBalanceArgs (.mk v (.mk lv ll lr lh) (.mk rv rl rr rh) h) v =
      match findMin (.mk rv rl rr rh) with
      | .null => none
      | .mk tv _ _ _ =>
          (Node.remove (.mk rv rl rr rh) tv).bind fun r1 =>
            (Node.removeBalanceArgs (.mk rv rl rr rh) tv).map fun args =>
              args ++ [.mk tv (.mk lv ll lr lh) r1 h] := by
  rw [Node.removeBalanceArgs]
  simp [Node.isNull]

/-- The nodes handed to `balance` during a removal from a subtree satisfying
the invariants have subtree heights differing by at most 2. -/
theorem Node.removeBalanceArgs_spec (t : Node) (k : Int) (ha : AVL t)
    (hs : (keys t).Pairwise (· < ·)) :
    ∃ args, Node.removeBalanceArgs t k = some args
      ∧ ∀ n ∈ args, -2 ≤ getBalanceFactor n ∧ getBalanceFactor n ≤ 2 := by
  induction t generalizing k with
  | null => exact ⟨[], rfl, fun n hn => absurd hn (List.not_mem_nil n)⟩
  | mk v l r h ihl ihr =>
      obtain ⟨h1, h2, h3, hl, hr⟩ := ha
      rw [keys_mk, pairwise_node] at hs
      obtain ⟨sl, sr, bl, br⟩ := hs
      rcases lt_trichotomy k v with c | c | c
      · rw [Node.removeBalanceArgs_lt v h k l r c]
        obtain ⟨l1, e1, _, _, _, g1, g2⟩ := Node.remove_spec l k hl sl
        obtain ⟨args, e2, hb⟩ := ihl k hl sl
        refine ⟨args ++ [.mk v l1 r h], by simp [e1, e2], fun n hn => ?_⟩
        rcases List.mem_append.1 hn with hn | hn
        · exact hb n hn
        · rw [List.mem_singleton.1 hn, getBalanceFactor_mk]
          constructor <;> omega
      · subst c
        cases l with
        | null =>
            cases r with
            | null => exact ⟨[], by simp [Node.removeBalanceArgs, Node.isNull], by simp⟩
            | mk rv rl rr rh =>
                refine ⟨[.mk rv rl rr rh], by simp [Node.removeBalanceArgs, Node.isNull],
                  fun n hn => ?_⟩
                rw [List.mem_singleton.1 hn, getBalanceFactor_mk]
                obtain ⟨_, q2, q3, _, _⟩ := hr
                constructor <;> omega
        | mk lv ll lr lh =>
            cases r with
            | null =>
                refine ⟨[.mk lv ll lr lh], by simp [Node.removeBalanceArgs, Node.isNull],
                  fun n hn => ?_⟩
                rw [List.mem_singleton.1 hn, getBalanceFactor_mk]
                obtain ⟨_, q2, q3, _, _⟩ := hl
                constructor <;> omega
            | mk rv rl rr rh =>
                rw [Node.removeBalanceArgs_two]
                obtain ⟨tv, tl, tr, th, rest, e, kq⟩ := findMin_spec (.mk rv rl rr rh) rfl
                rw [e]
                simp only []
                obtain ⟨r1, e1, _, _, _, g1, g2⟩ := Node.remove_spec (.mk rv rl rr rh) tv hr sr
                obtain ⟨args, e2, hb⟩ := ihr tv hr sr
                refine ⟨args ++ [.mk tv (.mk lv ll lr lh) r1 h], by simp [e1, e2],
                  fun n hn => ?_⟩
                rcases List.mem_append.1 hn with hn | hn
                · exact hb n hn
                · rw [List.mem_singleton.1 hn, getBalanceFactor_mk]
                  constructor <;> omega
      · rw [Node.removeBalanceArgs_gt v h k l r c]
        obtain ⟨r1, e1, _, _, _, g1, g2⟩ := Node.remove_spec r k hr sr
        obtain ⟨args, e2, hb⟩ := ihr k hr sr
        refine ⟨args ++ [.mk v l r1 h], by simp [e1, e2], fun n hn => ?_⟩
        rcases List.mem_append.1 hn with hn | hn
        · exact hb n hn
        · rw [List.mem_singleton.1 hn, getBalanceFactor_mk]
          constructor <;> omega

/-- When `balance` takes no rotating branch during an insertion, the result is
that of plain BST insertion. -/
theorem Node.insert_eq_insertNoBalance (t : Node) (k : Int) :
    ∀ args, Node.insertBalanceArgs t k = some args → (∀ n ∈ args, balanceRotates n = false) →
      Node.insert t k = some (Node.insertNoBalance t k) := by
  induction t with
  | null => intro _ _ _; rfl
  | mk v l r h ihl ihr =>
      intro args ea hr
      unfold Node.insertBalanceArgs at ea
      unfold Node.insert Node.insertNoBalance
      split_ifs at ea ⊢ with c1 c2
      · cases e1 : Node.insert l k with
        | none => simp [e1] at ea
        | some l1 =>
            cases e2 : Node.insertBalanceArgs l k with
            | none => simp [e1, e2] at ea
            | some args1 =>
                have ea2 : args1 ++ [Node.mk v l1 r h] = args := by simpa [e1, e2] using ea
                subst ea2
                have q := ihl args1 e2 (fun n hn => hr n (List.mem_append_left _ hn))
                rw [e1] at q
                cases q
                show balance (.mk v (Node.insertNoBalance l k) r h) = _
                exact balance_of_not_rotates (hr _ (List.mem_append_right _ (List.mem_singleton_self _)))
      · cases e1 : Node.insert r k with
        | none => simp [e1] at ea
        | some r1 =>
            cases e2 : Node.insertBalanceArgs r k with
            | none => simp [e1, e2] at ea
            | some args1 =>
                have ea2 : args1 ++ [Node.mk v l r1 h] = args := by simpa [e1, e2] using ea
                subst ea2
                have q := ihr args1 e2 (fun n hn => hr n (List.mem_append_left _ hn))
                rw [e1] at q
                cases q
                show balance (.mk v l (Node.insertNoBalance r k) h) = _
                exact balance_of_not_rotates (hr _ (List.mem_append_right _ (List.mem_singleton_self _)))
      · rfl

end AVLTree

namespace AVLTree

theorem length_keys (n : Node) : (keys n).length = size n := by
  induction n with
  | null => rfl
  | mk v l r h ihl ihr =>
      rw [keys_mk, List.length_append, List.length_cons, ihl, ihr]
      simp only [size]
      omega

/-- An AVL tree of cached height `h` has at least `fib (h + 2) - 1` nodes. -/
theorem fib_le_size (n : Node) (hn : AVL n) :
    ∀ h : Nat, getHeight n = (h : Int) → Nat.fib (h + 2) ≤ size n + 1 := by
  induction n with
  | null =>
      intro h hh
      simp only [getHeight_null] at hh
      have : h = 0 := by omega
      subst this
      simp [size]
  | mk v l r c ihl ihr =>
      intro h hh
      obtain ⟨h1, h2, h3, hl, hr⟩ := hn
      have hl0 := AVL_getHeight_nonneg hl
      have hr0 := AVL_getHeight_nonneg hr
      obtain ⟨a, ha⟩ : ∃ a : Nat, getHeight l = (a : Int) := ⟨(getHeight l).toNat, by omega⟩
      obtain ⟨b, hb⟩ : ∃ b : Nat, getHeight r = (b : Int) := ⟨(getHeight r).toNat, by omega⟩
      have fa := ihl hl a ha
      have fb := ihr hr b hb
      simp only [getHeight_mk] at hh
      simp only [size]
      rcases Nat.le_total b a with q | q
      · have e : h = a + 1 := by omega
        subst e
        have m : Nat.fib (a + 1) ≤ Nat.fib (b + 2) := Nat.fib_mono (by omega)
        have s : Nat.fib (a + 1 + 2) = Nat.fib (a + 1) + Nat.fib (a + 2) := Nat.fib_add_two
        omega
      · have e : h = b + 1 := by omega
        subst e
        have m : Nat.fib (b + 1) ≤ Nat.fib (a + 2) := Nat.fib_mono (by omega)
        have s : Nat.fib (b + 1 + 2) = Nat.fib (b + 1) + Nat.fib (b + 2) := Nat.fib_add_two
        omega

/-- Inserting the keys of a list one after the other, from a tree satisfying
the invariant. -/
theorem runOps_ins (l : List Int) :
    ∀ t0 : AVLTree, Inv t0 →
      ∃ t2, runOps t0 (l.map Op.ins) = some t2 ∧ Inv t2
        ∧ ∀ x, x ∈ toInOrderList t2 ↔ x ∈ l ∨ x ∈ toInOrderList t0 := by
  induction l with
  | nil => intro t0 h0; exact ⟨t0, rfl, h0, by simp⟩
  | cons a l ih =>
      intro t0 h0
      obtain ⟨t1, e1, i1, m1, _, _⟩ := insert_inv t0 a h0
      obtain ⟨t2, e2, i2, m2⟩ := ih t1 i1
      refine ⟨t2, by simp [runOps, applyOp, e1, e2], i2, fun x => ?_⟩
      rw [m2 x, m1 x, List.mem_cons]
      constructor
      · rintro (hx | hx | hx)
        · exact Or.inl (Or.inr hx)
        · exact Or.inl (Or.inl hx)
        · exact Or.inr hx
      · rintro ((hx | hx) | hx)
        · exact Or.inr (Or.inl hx)
        · exact Or.inl hx
        · exact Or.inr (Or.inr hx)

/-- Inserting a list of distinct keys into the empty tree gives a tree with as
many nodes as the list has keys. -/
theorem runOps_ins_size (ks : List Int) (hd : ks.Nodup) :
    ∃ t, runOps empty (ks.map Op.ins) = some t ∧ Inv t ∧ size t.root = ks.length := by
  obtain ⟨t, e, i, m⟩ := runOps_ins ks empty inv_empty
  refine ⟨t, e, i, ?_⟩
  have nd : (toInOrderList t).Nodup := List.Sorted.nodup i.2
  have p : (toInOrderList t).Perm ks := by
    rw [List.perm_ext_iff_of_nodup nd hd]
    intro x
    rw [m x]
    constructor
    · rintro (hx | hx)
      · exact hx
      · exact absurd hx (List.not_mem_nil x)
    · exact Or.inl
  rw [← length_keys]
  exact p.length_eq

set_option exponentiation.threshold 1200 in
theorem pow_le_fib_pow (h : Nat) (hh : h ≤ 45) : 2 ^ (25 * h) ≤ (Nat.fib (h + 2) + 1) ^ 36 := by
  interval_cases h <;> decide

end AVLTree

namespace AVLTree

theorem real_height_bound (h n : Nat) (hp : 2 ^ (25 * h) ≤ (n + 2) ^ 36) :
    (h : ℝ) ≤ 1.44 * Real.logb 2 ((n : ℝ) + 2) := by
  have h1 : ((2 : ℝ) ^ (25 * h)) ≤ ((n : ℝ) + 2) ^ 36 := by exact_mod_cast hp
  have h2 := Real.log_le_log (by positivity) h1
  rw [Real.log_pow, Real.log_pow] at h2
  have l2 : 0 < Real.log 2 := Real.log_pos (by norm_num)
  rw [← Real.log_div_log]
  have e : (1.44 : ℝ) * (Real.log ((n : ℝ) + 2) / Real.log 2)
      = (1.44 * Real.log ((n : ℝ) + 2)) / Real.log 2 := by ring
  rw [e, le_div_iff₀ l2]
  push_cast at h2
  linarith

theorem length_le_of_int_range (ks : List Int) (hd : ks.Nodup)
    (hr : ∀ k ∈ ks, -2 ^ 31 ≤ k ∧ k < 2 ^ 31) : ks.length ≤ 2 ^ 32 := by
  have hs : ks.toFinset ⊆ Finset.Ico (-2 ^ 31 : Int) (2 ^ 31) := by
    intro x hx
    rw [List.mem_toFinset] at hx
    rw [Finset.mem_Ico]
    exact hr x hx
  have hc := Finset.card_le_card hs
  rw [List.toFinset_card_of_nodup hd, Int.card_Ico] at hc
  have e : ((2 : Int) ^ 31 - -2 ^ 31).toNat = 2 ^ 32 := by decide
  rw [e] at hc
  exact hc

/-- The tree `fibTree h` satisfies the invariant, has height `h` and exactly
`fib (h + 2) - 1` nodes. -/
theorem fibTree_spec (h : Nat) :
    (AVL (fibTree h) ∧ getHeight (fibTree h) = (h : Int)
        ∧ size (fibTree h) + 1 = Nat.fib (h + 2))
      ∧ (AVL (fibTree (h + 1)) ∧ getHeight (fibTree (h + 1)) = ((h + 1 : Nat) : Int)
        ∧ size (fibTree (h + 1)) + 1 = Nat.fib (h + 1 + 2)) := by
  induction h with
  | zero =>
      refine ⟨⟨trivial, rfl, rfl⟩, ⟨⟨by decide, by decide, by decide, trivial, trivial⟩, rfl, rfl⟩⟩
  | succ h ih =>
      obtain ⟨⟨a0, g0, s0⟩, ⟨a1, g1, s1⟩⟩ := ih
      refine ⟨⟨a1, g1, s1⟩, ⟨?_, rfl, ?_⟩⟩
      · show AVL (.mk 0 (fibTree (h + 1)) (fibTree h) ((h + 2 : Nat) : Int))
        rw [AVL_mk, g0, g1]
        refine ⟨?_, ?_, ?_, a1, a0⟩ <;> push_cast <;> omega
      · show size (fibTree (h + 1)) + size (fibTree h) + 1 + 1 = Nat.fib (h + 1 + 1 + 2)
        have f : Nat.fib (h + 2 + 2) = Nat.fib (h + 2) + Nat.fib (h + 2 + 1) := Nat.fib_add_two
        have e : h + 1 + 1 + 2 = h + 2 + 2 := by omega
        have e2 : Nat.fib (h + 2 + 1) = Nat.fib (h + 1 + 2) := rfl
        rw [e, f, e2]
        omega

/-- C11. AVL height bound: after inserting a list of `n` distinct keys into the
empty tree, the height `h` of the tree satisfies `n ≥ Fib(h + 2) - 1` (with
`Fib(1) = Fib(2) = 1`), the least number of nodes of an AVL tree of height `h` (no balanced tree
with correct heights has fewer, and one has exactly that many); and, the keys being values of the 32 bit type `int`,
`h ≤ 1.44 * log2 (n + 2)`. -/
theorem avl_height_bound (ks : List Int) (hd : ks.Nodup) :
    (∃ t, runOps empty (ks.map Op.ins) = some t
      ∧ Nat.fib ((trueHeight t.root).toNat + 2) - 1 ≤ ks.length
      ∧ ((∀ k ∈ ks, -2 ^ 31 ≤ k ∧ k < 2 ^ 31) →
          ((trueHeight t.root : Int) : ℝ) ≤ 1.44 * Real.logb 2 ((ks.length : ℝ) + 2)))
      ∧ (∀ n, IsBalanced n → HeightsOK n →
          Nat.fib ((trueHeight n).toNat + 2) - 1 ≤ size n)
      ∧ (∀ h : Nat, ∃ n, IsBalanced n ∧ HeightsOK n ∧ trueHeight n = (h : Int)
          ∧ size n = Nat.fib (h + 2) - 1) := by
  refine ⟨?_, fun n bn hon => ?_, fun h => ?_⟩
  rotate_left
  · have an := (AVL_iff n).2 ⟨bn, hon⟩
    have e0 := getHeight_eq_trueHeight hon
    have h0 := trueHeight_nonneg n
    have fb := fib_le_size n an (trueHeight n).toNat (by omega)
    omega
  · obtain ⟨⟨a, g, s⟩, _⟩ := fibTree_spec h
    have b := (AVL_iff (fibTree h)).1 a
    exact ⟨fibTree h, b.1, b.2, by rw [← getHeight_eq_trueHeight b.2, g], by omega⟩
  obtain ⟨t, e, i, sz⟩ := runOps_ins_size ks hd
  have e0 := getHeight_eq_trueHeight ((AVL_iff t.root).1 i.1).2
  have h0 := trueHeight_nonneg t.root
  obtain ⟨h, hh⟩ : ∃ h : Nat, trueHeight t.root = (h : Int) :=
    ⟨(trueHeight t.root).toNat, by omega⟩
  have fb := fib_le_size t.root i.1 h (by omega)
  rw [sz] at fb
  have eh : (trueHeight t.root).toNat = h := by omega
  refine ⟨t, e, by rw [eh]; omega, fun hr => ?_⟩
  have hn := length_le_of_int_range ks hd hr
  have h45 : h ≤ 45 := by
    by_contra hc
    have m : Nat.fib 48 ≤ Nat.fib (h + 2) := Nat.fib_mono (by omega)
    have f48 : Nat.fib 48 = 4807526976 := by norm_num
    have : (2 : Nat) ^ 32 = 4294967296 := by norm_num
    omega
  have p1 := pow_le_fib_pow h h45
  have p2 : (Nat.fib (h + 2) + 1) ^ 36 ≤ (ks.length + 2) ^ 36 :=
    Nat.pow_le_pow_left (by omega) 36
  have key := real_height_bound h ks.length (le_trans p1 p2)
  rw [hh]
  exact_mod_cast key

theorem avl_height_bound_witness :
    [3, 1, 2, 7, 5].Nodup ∧ (∀ k ∈ [3, 1, 2, 7, 5], -2 ^ 31 ≤ k ∧ k < 2 ^ 31)
      ∧ ∃ t, runOps empty ([3, 1, 2, 7, 5].map Op.ins) = some t
          ∧ Nat.fib ((trueHeight t.root).toNat + 2) - 1 ≤ [3, 1, 2, 7, 5].length
          ∧ ((trueHeight t.root : Int) : ℝ)
              ≤ 1.44 * Real.logb 2 ((([3, 1, 2, 7, 5] : List Int).length : ℝ) + 2) :=
  ⟨by decide, by decide,
    let ⟨t, e, f, g⟩ := (avl_height_bound [3, 1, 2, 7, 5] (by decide)).1
    ⟨t, e, f, g (by decide)⟩⟩

end AVLTree

namespace AVLTree

/-! The claims, continued -/

/-- C12. The scenario of the demo driver: from the empty tree, inserting 10,
20, 30, 40, 50, 25 in that order gives `toInOrderList() = [10,20,25,30,40,50]`
and, with fuel for its six iterations, `toLevelOrderList() =
[30,20,40,10,25,50]`; then `remove(30)` gives `toInOrderList() =
[10,20,25,40,50]`, `contains(25) = true` and `contains(30) = false`. -/
theorem demo_scenario :
    ∃ t, runOps empty [.ins 10, .ins 20, .ins 30, .ins 40, .ins 50, .ins 25] = some t
      ∧ toInOrderList t = [10, 20, 25, 30, 40, 50]
      ∧ (∀ fuel, 6 ≤ fuel → toLevelOrderList fuel t = some [30, 20, 40, 10, 25, 50])
      ∧ ∃ t1, t.remove 30 = some t1
          ∧ toInOrderList t1 = [10, 20, 25, 40, 50]
          ∧ (t1.contains 25).1 = true
          ∧ (t1.contains 30).1 = false := by
  refine ⟨⟨.mk 30 (.mk 20 (.mk 10 .null .null 1) (.mk 25 .null .null 1) 2)
      (.mk 40 .null (.mk 50 .null .null 1) 2) 3⟩, rfl, rfl, fun fuel hf => ?_,
    ⟨.mk 40 (.mk 20 (.mk 10 .null .null 1) (.mk 25 .null .null 1) 2) (.mk 50 .null .null 1) 3⟩,
    rfl, rfl, rfl, rfl⟩
  exact levelOrderTraversal_eq fuel _ hf

/-- C13. Deletion of a two-child node: in the tree built by inserting 20, 10,
30, 5, 15, 25, 35 in that order, key 20 is at a node with two children;
`remove(20)` puts the successor key 25, the minimum of the right subtree, in
that node, the in-order list of the result is `[5,10,15,25,30,35]`, and the AVL
balance invariant holds at every node of the result. -/
theorem two_child_deletion :
    ∃ l r h l1 r1 h1,
      runOps empty [.ins 20, .ins 10, .ins 30, .ins 5, .ins 15, .ins 25, .ins 35]
          = some ⟨.mk 20 l r h⟩
        ∧ l.isNull = false ∧ r.isNull = false
        ∧ findMin r = .mk 25 .null .null 1
        ∧ remove ⟨.mk 20 l r h⟩ 20 = some ⟨.mk 25 l1 r1 h1⟩
        ∧ l1 = l
        ∧ toInOrderList ⟨.mk 25 l1 r1 h1⟩ = [5, 10, 15, 25, 30, 35]
        ∧ IsBalanced (.mk 25 l1 r1 h1) :=
  ⟨.mk 10 (.mk 5 .null .null 1) (.mk 15 .null .null 1) 2,
    .mk 30 (.mk 25 .null .null 1) (.mk 35 .null .null 1) 2, 3,
    .mk 10 (.mk 5 .null .null 1) (.mk 15 .null .null 1) 2,
    .mk 30 .null (.mk 35 .null .null 1) 2, 3,
    rfl, rfl, rfl, rfl, rfl, rfl, rfl, by decide⟩

end AVLTree

namespace AVLTree

/-- C14. Level order is breadth-first by depth: for every tree, of any shape,
the queue loop of `levelOrderTraversal` ends within one iteration per node, and
`toLevelOrderList()` is the concatenation, for depth 0, 1, 2, ..., of the keys
of the nodes at that depth listed left to right; it therefore lists every node
exactly once (it is a rearrangement of the in-order list, of length the number
of nodes), and the empty tree gives the empty list. -/
theorem levelOrder_by_depth (t : AVLTree) (fuel : Nat) (hf : size t.root ≤ fuel) :
    toLevelOrderList fuel t = some (byDepth t.root)
      ∧ (byDepth t.root).Perm (toInOrderList t)
      ∧ (byDepth t.root).length = size t.root
      ∧ toLevelOrderList fuel empty = some [] := by
  refine ⟨levelOrderTraversal_eq fuel t.root hf, byDepth_perm t.root, ?_, rfl⟩
  rw [(byDepth_perm t.root).length_eq]
  generalize t.root = n
  induction n with
  | null => rfl
  | mk v l r h ihl ihr =>
      rw [keys_mk, List.length_append, List.length_cons, ihl, ihr]
      simp only [size]
      omega

theorem levelOrder_by_depth_witness :
    size (Node.mk 30 (.mk 20 (.mk 10 .null .null 1) .null 2) (.mk 40 .null .null 1) 3) ≤ 4
      ∧ toLevelOrderList 4 ⟨.mk 30 (.mk 20 (.mk 10 .null .null 1) .null 2) (.mk 40 .null .null 1) 3⟩
          = some (byDepth (.mk 30 (.mk 20 (.mk 10 .null .null 1) .null 2) (.mk 40 .null .null 1) 3)) :=
  ⟨by decide,
    (levelOrder_by_depth
      ⟨.mk 30 (.mk 20 (.mk 10 .null .null 1) .null 2) (.mk 40 .null .null 1) 3⟩ 4 (by decide)).1⟩

/-- C16. Rebalance restores the invariant: for a node whose two subtrees are
BST-ordered around the key of the node, AVL-balanced, carry correct cached
heights, and have heights differing by at most 2, `balance` returns a tree that
is AVL-balanced at every node with correct cached heights, has the in-order
keys of the input (so is BST-ordered), and has height `m` or `m + 1` for `m` the
larger of the two subtree heights; when the heights differ by at most 1 the node
is returned with its children unchanged. -/
theorem balance_restores (v h : Int) (l r : Node)
    (hbl : IsBST l) (hbr : IsBST r)
    (hkl : ∀ x ∈ keys l, x < v) (hkr : ∀ x ∈ keys r, v < x)
    (hl : IsBalanced l) (hr : IsBalanced r) (ol : HeightsOK l) (or : HeightsOK r)
    (hd1 : trueHeight l - trueHeight r ≤ 2) (hd2 : trueHeight r - trueHeight l ≤ 2) :
    ∃ t, balance (.mk v l r h) = some t
      ∧ IsBalanced t ∧ HeightsOK t
      ∧ keys t = keys (.mk v l r h) ∧ IsBST t
      ∧ (trueHeight t = max (trueHeight l) (trueHeight r)
          ∨ trueHeight t = max (trueHeight l) (trueHeight r) + 1)
      ∧ (trueHeight l - trueHeight r ≤ 1 → trueHeight r - trueHeight l ≤ 1 →
          t = .mk v l r (1 + max (getHeight l) (getHeight r))) := by
  have al := (AVL_iff l).2 ⟨hl, ol⟩
  have ar := (AVL_iff r).2 ⟨hr, or⟩
  have el := getHeight_eq_trueHeight ol
  have er := getHeight_eq_trueHeight or
  obtain ⟨t, e, a, kq, g, u⟩ := balance_spec v h l r al ar (by omega) (by omega)
  have bt := (AVL_iff t).1 a
  have et := getHeight_eq_trueHeight bt.2
  refine ⟨t, e, bt.1, bt.2, by rw [kq, keys_mk], ?_, by omega, fun d1 d2 => u (by omega) (by omega)⟩
  rw [isBST_iff_pairwise, kq, pairwise_node]
  exact ⟨(isBST_iff_pairwise l).1 hbl, (isBST_iff_pairwise r).1 hbr, hkl, hkr⟩

theorem balance_restores_witness :
    ∃ t, balance (.mk 10 .null (.mk 20 .null (.mk 30 .null .null 1) 2) 1) = some t
      ∧ IsBalanced t ∧ HeightsOK t
      ∧ keys t = keys (.mk 10 .null (.mk 20 .null (.mk 30 .null .null 1) 2) 1) :=
  let ⟨t, e, b, o, k, _⟩ :=
    balance_restores 10 1 .null (.mk 20 .null (.mk 30 .null .null 1) 2)
      (by decide) (by decide) (by decide) (by decide) (by decide) (by decide) (by decide)
      (by decide) (by decide) (by decide)
  ⟨t, e, b, o, k⟩

/-- C17. Rotations keep the key order and touch only two heights: for a node
`y` with a left child `x`, `rotateRight(y)` has `x` as its root, holds the three
sub-subtrees `x.left`, `x.right`, `y.right` as they were, cached heights
included, recomputes the height of the demoted `y` first and then that of `x`
from it, and has the in-order keys of `y`; symmetrically for `rotateLeft` on a
node with a right child. -/
theorem rotations_frame (yv xv yh xh : Int) (a b c : Node) :
    rotateRight (.mk yv (.mk xv a b xh) c yh)
        = some (.mk xv a (.mk yv b c (1 + max (getHeight b) (getHeight c)))
            (1 + max (getHeight a) (1 + max (getHeight b) (getHeight c))))
      ∧ keys (.mk xv a (.mk yv b c (1 + max (getHeight b) (getHeight c)))
            (1 + max (getHeight a) (1 + max (getHeight b) (getHeight c))))
          = keys (.mk yv (.mk xv a b xh) c yh)
      ∧ rotateLeft (.mk xv a (.mk yv b c yh) xh)
        = some (.mk yv (.mk xv a b (1 + max (getHeight a) (getHeight b))) c
            (1 + max (1 + max (getHeight a) (getHeight b)) (getHeight c)))
      ∧ keys (.mk yv (.mk xv a b (1 + max (getHeight a) (getHeight b))) c
            (1 + max (1 + max (getHeight a) (getHeight b)) (getHeight c)))
          = keys (.mk xv a (.mk yv b c yh) xh) := by
  refine ⟨rfl, ?_, rfl, ?_⟩ <;> simp [keys_mk]

end AVLTree

namespace AVLTree

theorem intercalate_go_printElements (l : List Int) :
    ∀ acc : String, String.intercalate.go acc ", " (l.map toString)
      = acc ++ (if l.isEmpty then "" else ", ") ++ printElements l := by
  induction l with
  | nil =>
      intro acc
      simp [String.intercalate.go, printElements]
  | cons x rest ih =>
      intro acc
      rw [List.map_cons, String.intercalate.go, ih]
      simp [printElements, String.append_assoc]

/-- The `for` loop of `printAsList` writes the elements separated by `", "`. -/
theorem printElements_eq (l : List Int) :
    printElements l = String.intercalate ", " (l.map toString) := by
  cases l with
  | nil => rfl
  | cons x rest =>
      rw [List.map_cons, String.intercalate, intercalate_go_printElements]
      simp [printElements, String.append_assoc]

/-- C15. `printAsList` never fails on a bad label: for every tree, with fuel
for the level-order loop, and every order string other than `inorder`,
`preorder`, `postorder`, `levelorder`, the text written is one warning line
followed by exactly the text written for `inorder`; and for each recognised
label the text is the label, then the keys of that traversal separated by a
comma and a space inside square brackets, then a newline (`[]` for the empty
tree). -/
theorem printAsList_spec (fuel : Nat) (t : AVLTree) (order : String)
    (hf : size t.root ≤ fuel)
    (hu : order ≠ "inorder" ∧ order ≠ "preorder" ∧ order ≠ "postorder" ∧ order ≠ "levelorder") :
    (∃ text, printAsList fuel t "inorder" = some text
        ∧ printAsList fuel t order
            = some ("Unknown traversal type. Using inorder by default.\n" ++ text))
      ∧ printAsList fuel t "inorder"
          = some ("In-order traversal (sorted): ["
              ++ String.intercalate ", " ((toInOrderList t).map toString) ++ "]\n")
      ∧ printAsList fuel t "preorder"
          = some ("Pre-order traversal: ["
              ++ String.intercalate ", " ((toPreOrderList t).map toString) ++ "]\n")
      ∧ printAsList fuel t "postorder"
          = some ("Post-order traversal: ["
              ++ String.intercalate ", " ((toPostOrderList t).map toString) ++ "]\n")
      ∧ (∃ elements, toLevelOrderList fuel t = some elements
          ∧ printAsList fuel t "levelorder"
            = some ("Level-order traversal: ["
                ++ String.intercalate ", " (elements.map toString) ++ "]\n"))
      ∧ printAsList fuel empty "inorder" = some "In-order traversal (sorted): []\n"
      ∧ printAsList fuel empty "preorder" = some "Pre-order traversal: []\n"
      ∧ printAsList fuel empty "postorder" = some "Post-order traversal: []\n"
      ∧ printAsList fuel empty "levelorder" = some "Level-order traversal: []\n" := by
  obtain ⟨u1, u2, u3, u4⟩ := hu
  refine ⟨⟨_, rfl, ?_⟩, ?_, ?_, ?_, ⟨byDepth t.root, levelOrderTraversal_eq fuel t.root hf, ?_⟩,
    ?_, ?_, ?_, ?_⟩
  · unfold printAsList
    rw [if_neg u1, if_neg u2, if_neg u3, if_neg u4]
    simp only [String.append_assoc]
  · unfold printAsList
    rw [if_pos rfl, printElements_eq]
  · unfold printAsList
    rw [if_neg (by decide), if_pos rfl, printElements_eq]
  · unfold printAsList
    rw [if_neg (by decide), if_neg (by decide), if_pos rfl, printElements_eq]
  · unfold printAsList
    rw [if_neg (by decide), if_neg (by decide), if_neg (by decide), if_pos rfl]
    have e : toLevelOrderList fuel t = some (byDepth t.root) := levelOrderTraversal_eq fuel t.root hf
    rw [e, Option.map_some', printElements_eq]
  · rfl
  · rfl
  · rfl
  · rfl

theorem printAsList_spec_witness :
    size (Node.mk 20 (.mk 10 .null .null 1) (.mk 30 .null .null 1) 2) ≤ 3
      ∧ "sideways" ≠ "inorder"
      ∧ printAsList 3 ⟨.mk 20 (.mk 10 .null .null 1) (.mk 30 .null .null 1) 2⟩ "levelorder"
          = some "Level-order traversal: [20, 10, 30]\n"
      ∧ ∃ text,
          printAsList 3 ⟨.mk 20 (.mk 10 .null .null 1) (.mk 30 .null .null 1) 2⟩ "inorder"
              = some text
            ∧ printAsList 3 ⟨.mk 20 (.mk 10 .null .null 1) (.mk 30 .null .null 1) 2⟩ "sideways"
              = some ("Unknown traversal type. Using inorder by default.\n" ++ text) :=
  ⟨by decide, by decide, by decide,
    (printAsList_spec 3 ⟨.mk 20 (.mk 10 .null .null 1) (.mk 30 .null .null 1) 2⟩ "sideways"
      (by decide) ⟨by decide, by decide, by decide, by decide⟩).1⟩

end AVLTree

namespace AVLTree

/-- C18, refuted as stated.  In the demo scenario no rotation is performed
during the insertion of 40: in the tree built by inserting 10, 20, 30, `balance`
takes none of its rotating branches at the two nodes it is handed while 40 is
inserted, and the result is that of plain BST insertion without rebalancing. -/
theorem no_rotation_inserting_40 :
    ¬ ((∃ args, Node.insertBalanceArgs (.mk 10 .null (.mk 20 .null .null 1) 2) 30 = some args
          ∧ ∃ n ∈ args, balanceRotates n = true)
        ∧ (∃ args,
            Node.insertBalanceArgs (.mk 20 (.mk 10 .null .null 1) (.mk 30 .null .null 1) 2) 40
              = some args
          ∧ ∃ n ∈ args, balanceRotates n = true))
      ∧ runOps empty [.ins 10, .ins 20, .ins 30]
          = some ⟨.mk 20 (.mk 10 .null .null 1) (.mk 30 .null .null 1) 2⟩
      ∧ Node.insert (.mk 20 (.mk 10 .null .null 1) (.mk 30 .null .null 1) 2) 40
          = some (Node.insertNoBalance (.mk 20 (.mk 10 .null .null 1) (.mk 30 .null .null 1) 2) 40) := by
  refine ⟨?_, rfl, rfl⟩
  rintro ⟨_, args, e, n, hn, hr⟩
  have e1 : Node.insertBalanceArgs (.mk 20 (.mk 10 .null .null 1) (.mk 30 .null .null 1) 2) 40
      = some [.mk 30 .null (.mk 40 .null .null 1) 1,
          .mk 20 (.mk 10 .null .null 1) (.mk 30 .null (.mk 40 .null .null 1) 2) 2] := rfl
  rw [e1] at e
  cases e
  simp only [List.mem_cons, List.mem_singleton, List.not_mem_nil, or_false] at hn
  rcases hn with rfl | rfl
  · exact absurd hr (by decide)
  · exact absurd hr (by decide)

/-- C18, amended.  In the scenario insert 10, 20, 30, 40, 50, 25 into the empty
tree, a rotation is performed during the insertion of 30, of 50 and of 25
(`balance` takes a rotating branch at some node it is handed, and the result
differs from plain BST insertion without rebalancing), and none during the
insertion of 10, 20 and 40 (where the result is that of plain BST insertion). -/
theorem rotations_in_demo_scenario :
    ∃ t1 t2 t3 t4 t5 t6 : Node,
      Node.insert .null 10 = some t1 ∧ Node.insert t1 20 = some t2
        ∧ Node.insert t2 30 = some t3 ∧ Node.insert t3 40 = some t4
        ∧ Node.insert t4 50 = some t5 ∧ Node.insert t5 25 = some t6
        ∧ runOps empty [.ins 10, .ins 20, .ins 30, .ins 40, .ins 50, .ins 25] = some ⟨t6⟩
        ∧ rotatesDuringInsert .null 10 = false ∧ t1 = Node.insertNoBalance .null 10
        ∧ rotatesDuringInsert t1 20 = false ∧ t2 = Node.insertNoBalance t1 20
        ∧ rotatesDuringInsert t2 30 = true ∧ t3 ≠ Node.insertNoBalance t2 30
        ∧ rotatesDuringInsert t3 40 = false ∧ t4 = Node.insertNoBalance t3 40
        ∧ rotatesDuringInsert t4 50 = true ∧ t5 ≠ Node.insertNoBalance t4 50
        ∧ rotatesDuringInsert t5 25 = true ∧ t6 ≠ Node.insertNoBalance t5 25 :=
  ⟨.mk 10 .null .null 1,
    .mk 10 .null (.mk 20 .null .null 1) 2,
    .mk 20 (.mk 10 .null .null 1) (.mk 30 .null .null 1) 2,
    .mk 20 (.mk 10 .null .null 1) (.mk 30 .null (.mk 40 .null .null 1) 2) 3,
    .mk 20 (.mk 10 .null .null 1) (.mk 40 (.mk 30 .null .null 1) (.mk 50 .null .null 1) 2) 3,
    .mk 30 (.mk 20 (.mk 10 .null .null 1) (.mk 25 .null .null 1) 2)
      (.mk 40 .null (.mk 50 .null .null 1) 2) 3,
    rfl, rfl, rfl, rfl, rfl, rfl, rfl, rfl, rfl, rfl, rfl, rfl, by decide, rfl, rfl, rfl,
    by decide, rfl, by decide⟩

end AVLTree

namespace AVLTree

/-- C19. No null dereference in rebalancing.  `rotateRight` fails exactly where
the left child is absent and `rotateLeft` exactly where the right child is
absent.  For a node whose descendants carry correct cached heights: where
`balance` rotates right the left child exists, where it first rotates the left
child to the left that child has a right child and the outer rotation gets a
left child, symmetrically on the right, so `balance` returns; `findMin` of a
non-null subtree is not null; and on a reachable tree `insert` and `remove`
never reach the failure branch. -/
theorem no_null_dereference (v h : Int) (l r : Node) (t : AVLTree) (k : Int)
    (ol : HeightsOK l) (or : HeightsOK r) (ht : Reachable t) :
    (rotateRight (.mk v l r h)).isSome = !l.isNull
      ∧ (rotateLeft (.mk v l r h)).isSome = !r.isNull
      ∧ (getHeight l - getHeight r > 1 → l.isNull = false)
      ∧ (getHeight l - getHeight r > 1 → getBalanceFactor l < 0 →
          ∃ l1, rotateLeft l = some l1 ∧ l1.isNull = false)
      ∧ (getHeight l - getHeight r < -1 → r.isNull = false)
      ∧ (getHeight l - getHeight r < -1 → getBalanceFactor r > 0 →
          ∃ r1, rotateRight r = some r1 ∧ r1.isNull = false)
      ∧ (∃ t1, balance (.mk v l r h) = some t1)
      ∧ (r.isNull = false → (findMin r).isNull = false)
      ∧ (∃ t1, t.insert k = some t1) ∧ (∃ t2, t.remove k = some t2) := by
  have hi := reachable_inv ht
  refine ⟨rotateRight_isSome v h l r, rotateLeft_isSome v h l r,
    fun hd => (left_heavy_children l r ol or hd).1,
    fun hd => (left_heavy_children l r ol or hd).2,
    fun hd => (right_heavy_children l r ol or hd).1,
    fun hd => (right_heavy_children l r ol or hd).2,
    balance_some v h l r ol or, findMin_isNull r, ?_, ?_⟩
  · obtain ⟨t1, e, _⟩ := insert_inv t k hi
    exact ⟨t1, e⟩
  · obtain ⟨t2, e, _⟩ := remove_inv t k hi
    exact ⟨t2, e⟩

theorem no_null_dereference_witness :
    HeightsOK (.mk 20 .null (.mk 25 .null .null 1) 2) ∧ HeightsOK .null
      ∧ Reachable ⟨.mk 20 (.mk 10 .null .null 1) (.mk 30 .null .null 1) 2⟩
      ∧ (∃ t1, balance (.mk 30 (.mk 20 .null (.mk 25 .null .null 1) 2) .null 1) = some t1)
      ∧ (∃ t2, remove ⟨.mk 20 (.mk 10 .null .null 1) (.mk 30 .null .null 1) 2⟩ 20 = some t2) :=
  ⟨by decide, by decide, ⟨[.ins 10, .ins 20, .ins 30], rfl⟩,
    (no_null_dereference 30 1 (.mk 20 .null (.mk 25 .null .null 1) 2) .null
      ⟨.mk 20 (.mk 10 .null .null 1) (.mk 30 .null .null 1) 2⟩ 20
      (by decide) (by decide) ⟨[.ins 10, .ins 20, .ins 30], rfl⟩).2.2.2.2.2.2.1,
    (no_null_dereference 30 1 (.mk 20 .null (.mk 25 .null .null 1) 2) .null
      ⟨.mk 20 (.mk 10 .null .null 1) (.mk 30 .null .null 1) 2⟩ 20
      (by decide) (by decide) ⟨[.ins 10, .ins 20, .ins 30], rfl⟩).2.2.2.2.2.2.2.2.2⟩

/-- C20. Height changes by at most one per operation: on every reachable tree
of height `h` and for every key `k`, `insert(k)` returns a tree of height `h` or
`h + 1` and `remove(k)` a tree of height `h` or `h - 1`; and every node handed
to `balance` during either call has subtree heights differing by at most 2. -/
theorem height_changes_by_one (t : AVLTree) (k : Int) (h : Reachable t) :
    (∃ t1, t.insert k = some t1
        ∧ (trueHeight t1.root = trueHeight t.root ∨ trueHeight t1.root = trueHeight t.root + 1))
      ∧ (∃ t2, t.remove k = some t2
        ∧ (trueHeight t2.root = trueHeight t.root ∨ trueHeight t2.root = trueHeight t.root - 1))
      ∧ (∃ args, Node.insertBalanceArgs t.root k = some args
        ∧ ∀ n ∈ args, -2 ≤ getBalanceFactor n ∧ getBalanceFactor n ≤ 2)
      ∧ (∃ args, Node.removeBalanceArgs t.root k = some args
        ∧ ∀ n ∈ args, -2 ≤ getBalanceFactor n ∧ getBalanceFactor n ≤ 2) := by
  have hi := reachable_inv h
  have e0 := getHeight_eq_trueHeight ((AVL_iff t.root).1 hi.1).2
  refine ⟨?_, ?_, Node.insertBalanceArgs_spec t.root k hi.1 hi.2,
    Node.removeBalanceArgs_spec t.root k hi.1 hi.2⟩
  · obtain ⟨t1, e, i1, _, g1, g2⟩ := insert_inv t k hi
    have e1 := getHeight_eq_trueHeight ((AVL_iff t1.root).1 i1.1).2
    exact ⟨t1, e, by omega⟩
  · obtain ⟨t2, e, i2, _, g1, g2⟩ := remove_inv t k hi
    have e2 := getHeight_eq_trueHeight ((AVL_iff t2.root).1 i2.1).2
    exact ⟨t2, e, by omega⟩

theorem height_changes_by_one_witness :
    Reachable ⟨.mk 20 (.mk 10 .null .null 1) (.mk 30 .null .null 1) 2⟩
      ∧ (∃ t1, insert ⟨.mk 20 (.mk 10 .null .null 1) (.mk 30 .null .null 1) 2⟩ 40 = some t1
          ∧ (trueHeight t1.root
                = trueHeight (Node.mk 20 (.mk 10 .null .null 1) (.mk 30 .null .null 1) 2)
              ∨ trueHeight t1.root
                = trueHeight (Node.mk 20 (.mk 10 .null .null 1) (.mk 30 .null .null 1) 2) + 1)) :=
  ⟨⟨[.ins 10, .ins 20, .ins 30], rfl⟩,
    (height_changes_by_one ⟨.mk 20 (.mk 10 .null .null 1) (.mk 30 .null .null 1) 2⟩ 40
      ⟨[.ins 10, .ins 20, .ins 30], rfl⟩).1⟩

end AVLTree
